import Mathlib

/-!
Shallow embedding of `src/appstoreconnect2csv.py` (repository
osy/appstoreconnect2csv).

Modelling conventions:
* Python `Decimal` values are modelled as `ℚ` (exact rational arithmetic;
  the script only adds, subtracts, multiplies and divides money values).
* Dates are modelled as `Nat` (the script only compares dates and copies
  them around; the textual MM/DD/YYYY rendering is byte-level grammar,
  which the specification places out of scope).
* Python `assert`/`sys.exit` failures are modelled with `Except RunError`.
* The global counter `INDEX` is threaded explicitly as a `Nat` state.
* Input files are modelled at record-shape level (the specification
  declares the byte/TSV grammar out of scope): a settlement statement is
  a list of tables of typed rows, a sales report a list of typed rows.
-/

namespace A2C

/-- A ledger entry: one output row of the transactions table
(`[date, account, amount, INDEX, description, memo, price]` in the script). -/
structure Entry where
  date : Nat
  account : String
  amount : ℚ
  number : Nat
  description : String
  memo : String
  price : ℚ
  deriving Repr, DecidableEq

/-- `Transaction = namedtuple("Transaction", ["date", "entries"])`. -/
structure Txn where
  date : Nat
  entries : List Entry
  deriving Repr, DecidableEq

/-- One row of the prices table:
`[date, exchange_rate, 'CURRENCY', currency, bank_currency]`. -/
structure PriceRecord where
  date : Nat
  rate : ℚ
  space : String
  fromCurrency : String
  toCurrency : String
  deriving Repr, DecidableEq

/-- `CurrencyData` namedtuple: one parsed currency line of a settlement
statement table. -/
structure CurrencyData where
  currency : String
  earned : ℚ
  input_tax : ℚ
  adjustments : ℚ
  witholding : ℚ
  total : ℚ
  exchange_rate : ℚ
  proceeds : ℚ
  bank_currency : String
  deriving Repr, DecidableEq

/-- A raw data row of a settlement-statement currency table, before the
blank-exchange-rate filter; `exchange_rate = none` models a blank
exchange-rate cell (`line[8] == ''`). -/
structure PaymentRow where
  currency : String
  earned : ℚ
  input_tax : ℚ
  adjustments : ℚ
  witholding : ℚ
  total : ℚ
  exchange_rate : Option ℚ
  proceeds : ℚ
  bank_currency : String
  deriving Repr, DecidableEq

/-- Reading one data row once its exchange-rate cell is known non-blank. -/
def PaymentRow.toData (r : PaymentRow) (x : ℚ) : CurrencyData :=
  { currency := r.currency
    earned := r.earned
    input_tax := r.input_tax
    adjustments := r.adjustments
    witholding := r.witholding
    total := r.total
    exchange_rate := x
    proceeds := r.proceeds
    bank_currency := r.bank_currency }

/-- The inner row loop of `parse_payment_csv`: keep rows whose
exchange-rate cell is non-blank (`if line[8] == '': continue`). -/
def parseCurrencyList (rows : List PaymentRow) : List CurrencyData :=
  rows.filterMap fun r => (r.exchange_rate).map r.toData

/-- One currency table of a settlement statement, at record-shape level:
its data rows, the summary row's settled amount, and the account label
row that follows it. -/
structure PaymentTable where
  rows : List PaymentRow
  amount : ℚ
  account : String
  deriving Repr, DecidableEq

/-- The failure conditions of the script (`assert` / `sys.exit(1)`). -/
inductive RunError where
  | balanceMismatch
  | multipleBankCurrencies
  | currencyMismatch
  | noMatchingDeposit
  deriving Repr, DecidableEq

/-- `Payment` namedtuple. `currency_data` keeps the parsed line list; the
Python dict `{c.currency: c for c in currency_list}` is recovered by
`dictFind` (last line with a given code wins). -/
structure Payment where
  bank_currency : Option String
  transactions : List Txn
  conversion : List PriceRecord
  amount : ℚ
  estimated_date : Nat
  currency_data : List CurrencyData
  deriving Repr, DecidableEq

/-- Lookup in `payment.currency_data`: Python dict semantics, the last
currency line with the given code wins. -/
def dictFind (cl : List CurrencyData) (c : String) : Option CurrencyData :=
  cl.reverse.find? fun cd => cd.currency = c

/-- The receivable legs of a payment batch (`data` before the
tax/adjustment loop): one aggregate debit at `amount`, then one credit
per currency line at `-total`, annotated with the effective rate
`proceeds / total`. -/
def recvEntries (date : Nat) (account : String) (amount : ℚ) (idx : Nat)
    (cl : List CurrencyData) : List Entry :=
  ⟨date, "Assets:Accounts Receivable", amount, idx, account, "", 0⟩ ::
    cl.map fun cd =>
      ⟨date, "Assets:Accounts Receivable:" ++ cd.currency, -cd.total, idx,
        account, "", cd.proceeds / cd.total⟩

/-- The price records emitted for a table: one per currency line whose
currency differs from the bank currency, carrying the printed
exchange-rate column. -/
def convRecords (date : Nat) (cl : List CurrencyData) : List PriceRecord :=
  cl.filterMap fun cd =>
    if cd.currency ≠ cd.bank_currency then
      some ⟨date, cd.exchange_rate, "CURRENCY", cd.currency, cd.bank_currency⟩
    else none

/-- The bank-currency consistency fold inside the receivable loop:
`if bank_currency == None: bank_currency = ... else: assert ...`. -/
def foldBank : Option String → List CurrencyData → Except RunError (Option String)
  | acc, [] => .ok acc
  | none, cd :: rest => foldBank (some cd.bank_currency) rest
  | some b, cd :: rest =>
      if b = cd.bank_currency then foldBank (some b) rest
      else .error .multipleBankCurrencies

/-- The taxes-and-adjustments loop of `parse_payment_csv`: for each
currency line with `input_tax + witholding + adjustments ≠ 0`, a fresh
transaction number, 1 to 2 expense legs converted at the effective rate
`proceeds / total`, and one receivable leg at `taxes + adjustments`
annotated with that rate. -/
def taxAdjEntries (date : Nat) : List CurrencyData → Nat → List Entry × Nat
  | [], idx => ([], idx)
  | cd :: rest, idx =>
      let taxes := cd.input_tax + cd.witholding
      let adjustments := cd.adjustments
      if taxes + adjustments = 0 then taxAdjEntries date rest idx
      else
        let rate := cd.proceeds / cd.total
        let taxLeg : List Entry :=
          if taxes ≠ 0 then
            [⟨date, "Expenses:Taxes:Other Tax", -taxes * rate, idx,
              cd.currency ++ " Taxes and Adjustments", "Tax", 0⟩]
          else []
        let adjLeg : List Entry :=
          if adjustments ≠ 0 then
            [⟨date, "Expenses:Adjustment", -adjustments * rate, idx,
              cd.currency ++ " Taxes and Adjustments", "Adjustment", 0⟩]
          else []
        let recvLeg : List Entry :=
          [⟨date, "Assets:Accounts Receivable:" ++ cd.currency,
            taxes + adjustments, idx,
            cd.currency ++ " Taxes and Adjustments", "", rate⟩]
        let next := taxAdjEntries date rest (idx + 1)
        (taxLeg ++ adjLeg ++ recvLeg ++ next.1, next.2)

/-- Sum of the `proceeds` column over the parsed currency lines
(`calculated_amount = sum(v.proceeds for v in currency_list)`). -/
def sumProceeds (cl : List CurrencyData) : ℚ :=
  (cl.map fun cd => cd.proceeds).sum

/-- Processing of one currency table of a settlement statement (`while`
body of `parse_payment_csv`): skip the table if every row's
exchange-rate cell is blank; otherwise check that proceeds sum to the
summary amount, check bank-currency consistency, and build the batch's
single transaction (receivable legs followed by tax/adjustment legs),
price records, and the next counter value. -/
def processTable (date : Nat) (tbl : PaymentTable) (idx : Nat) :
    Except RunError (Option Payment × Nat) :=
  let cl := parseCurrencyList tbl.rows
  if cl = [] then .ok (none, idx)
  else if sumProceeds cl ≠ tbl.amount then .error .balanceMismatch
  else
    match foldBank none cl with
    | .error e => .error e
    | .ok bank =>
        let data := recvEntries date tbl.account tbl.amount idx cl
        let tax := taxAdjEntries date cl (idx + 1)
        .ok (some
          { bank_currency := bank
            transactions := [⟨date, data ++ tax.1⟩]
            conversion := convRecords date cl
            amount := tbl.amount
            estimated_date := date
            currency_data := cl }, tax.2)

/-- `parse_payment_csv` over all currency tables of one statement file
(the header date is `date`, shared by every batch of the file). -/
def parsePaymentCsv (date : Nat) : List PaymentTable → Nat →
    Except RunError (List Payment × Nat)
  | [], idx => .ok ([], idx)
  | tbl :: rest, idx =>
      match processTable date tbl idx with
      | .error e => .error e
      | .ok (p, idx1) =>
          match parsePaymentCsv date rest idx1 with
          | .error e => .error e
          | .ok (ps, idx2) =>
              match p with
              | none => .ok (ps, idx2)
              | some payment => .ok (payment :: ps, idx2)

/-! ### Sales report parser (`parse_app_store_connect_report`) -/

/-- A Python `dict` from currency codes to `Decimal` totals, as an
insertion-ordered association list. -/
abbrev StrMap := List (String × ℚ)

/-- `m.get(k, Decimal(0))`. -/
def mapGet (m : StrMap) (k : String) : ℚ :=
  match m.find? fun p => p.1 = k with
  | some p => p.2
  | none => 0

/-- `m[k] = m.get(k, Decimal(0)) + v` with dict insertion-order
semantics. -/
def mapAdd : StrMap → String → ℚ → StrMap
  | [], k, v => [(k, v)]
  | p :: rest, k, v =>
      if p.1 = k then (p.1, p.2 + v) :: rest else p :: mapAdd rest k v

/-- `currencies.add(c)` on a Python set, modelled as first-insertion
order list. -/
def setAdd (s : List String) (c : String) : List String :=
  if c ∈ s then s else s ++ [c]

/-- One data row of a sales report, at record-shape level (the named
columns the parser extracts). -/
structure SaleRow where
  settlement_date : Nat
  title : String
  quantity : Int
  partner_share : ℚ
  partner_share_currency : String
  customer_price : ℚ
  customer_currency : String
  deriving Repr, DecidableEq

/-- `Report` namedtuple. -/
structure Report where
  currencies : List String
  transactions : List Txn
  start_date : String
  end_date : String
  commissions : StrMap
  earned : StrMap
  sales : StrMap
  deriving Repr, DecidableEq

/-- The per-row parser state of `parse_app_store_connect_report`. -/
structure RState where
  currencies : List String
  transactions : List Txn
  commissions : StrMap
  earned : StrMap
  sales : StrMap
  idx : Nat
  deriving Repr, DecidableEq

/-- The three ledger entries emitted for one sales row:
`-customer_total` on Income:Sales, `+partner_total` on the receivable,
`+commission` on Expenses:Commissions, all numbered `idx`. -/
def rowEntries (r : SaleRow) (idx : Nat) : List Entry :=
  let q : ℚ := (r.quantity : ℚ)
  let customer_total := |r.customer_price| * q
  let partner_total := |r.partner_share| * q
  let commission := (|r.customer_price| - |r.partner_share|) * q
  [⟨r.settlement_date, "Income:Sales:" ++ r.customer_currency,
      -customer_total, idx, r.title, "", 0⟩,
   ⟨r.settlement_date, "Assets:Accounts Receivable:" ++ r.customer_currency,
      partner_total, idx, r.title, "", 0⟩,
   ⟨r.settlement_date, "Expenses:Commissions:" ++ r.customer_currency,
      commission, idx, r.title, "Commission", 0⟩]

/-- The body of the row loop of `parse_app_store_connect_report`:
currency-mismatch assertion, accumulation of the per-currency
commission/earned/sales totals, the three-entry transaction, and the
counter bump. -/
def reportStep (s : RState) (r : SaleRow) : Except RunError RState :=
  if r.partner_share_currency ≠ r.customer_currency then
    .error .currencyMismatch
  else
    let q : ℚ := (r.quantity : ℚ)
    let customer_total := |r.customer_price| * q
    let partner_total := |r.partner_share| * q
    let commission := (|r.customer_price| - |r.partner_share|) * q
    .ok
      { currencies := setAdd s.currencies r.customer_currency
        transactions := s.transactions ++ [⟨r.settlement_date, rowEntries r s.idx⟩]
        commissions := mapAdd s.commissions r.customer_currency commission
        earned := mapAdd s.earned r.customer_currency partner_total
        sales := mapAdd s.sales r.customer_currency customer_total
        idx := s.idx + 1 }

/-- The row loop, folded over all data rows. -/
def reportRows : RState → List SaleRow → Except RunError RState
  | s, [] => .ok s
  | s, r :: rest =>
      match reportStep s r with
      | .error e => .error e
      | .ok s1 => reportRows s1 rest

/-- `parse_app_store_connect_report`: run the row loop from an empty
state at counter `idx` and package the `Report`. -/
def parseReport (start_date end_date : String) (rows : List SaleRow)
    (idx : Nat) : Except RunError (Report × Nat) :=
  match reportRows ⟨[], [], [], [], [], idx⟩ rows with
  | .error e => .error e
  | .ok s =>
      .ok ({ currencies := s.currencies
             transactions := s.transactions
             start_date := start_date
             end_date := end_date
             commissions := s.commissions
             earned := s.earned
             sales := s.sales }, s.idx)

/-! ### Reconciliation loop (`main`, lines 338-394) -/

/-- `match_count` for one candidate payment: the number of currencies of
`report.earned` present in `payment.currency_data` with identical earned
value. -/
def matchCount (r : Report) (p : Payment) : Nat :=
  r.earned.countP fun ce =>
    match dictFind p.currency_data ce.1 with
    | some cd => decide (cd.earned = ce.2)
    | none => false

/-- The inner candidate loop: the first payment (input order) with
`match_count > 0`; the list is never mutated by the loop. -/
def findPayment (ps : List Payment) (r : Report) : Option Payment :=
  ps.find? fun p => decide (0 < matchCount r p)

/-- `matched_payment.transactions[0].date`. -/
def paymentDate (p : Payment) : Nat :=
  match p.transactions with
  | t :: _ => t.date
  | [] => 0

/-- The commission-conversion loop: for each accumulated commission that
is positive and whose currency appears in the matched payment's
currency data, a two-leg transaction converted at the payment's printed
exchange rate. -/
def commissionConvs (date : Nat) (p : Payment) : StrMap → Nat → List Txn × Nat
  | [], idx => ([], idx)
  | ce :: rest, idx =>
      match dictFind p.currency_data ce.1 with
      | some cd =>
          if 0 < ce.2 then
            let rate := cd.exchange_rate
            let t : Txn :=
              ⟨date,
               [⟨date, "Expenses:Commissions", ce.2 * rate, idx,
                  "Commission " ++ ce.1, "", 0⟩,
                ⟨date, "Expenses:Commissions:" ++ ce.1, -ce.2, idx,
                  "Commission " ++ ce.1, "", rate⟩]⟩
            let next := commissionConvs date p rest (idx + 1)
            (t :: next.1, next.2)
          else commissionConvs date p rest idx
      | none => commissionConvs date p rest idx

/-- The sales-conversion loop: for each accumulated sales total whose
currency appears in the matched payment's currency data, a two-leg
transaction converted at the payment's printed exchange rate. -/
def salesConvs (date : Nat) (p : Payment) : StrMap → Nat → List Txn × Nat
  | [], idx => ([], idx)
  | ce :: rest, idx =>
      match dictFind p.currency_data ce.1 with
      | some cd =>
          let rate := cd.exchange_rate
          let t : Txn :=
            ⟨date,
             [⟨date, "Income:Sales:" ++ ce.1, ce.2, idx,
                "Sales Conversion " ++ ce.1, "", rate⟩,
              ⟨date, "Income:Sales", -(ce.2 * rate), idx,
                "Sales Conversion " ++ ce.1, "", 0⟩]⟩
          let next := salesConvs date p rest (idx + 1)
          (t :: next.1, next.2)
      | none => salesConvs date p rest idx

/-- Reconciliation of one report: find the first matching payment in the
(unmutated) candidate list; on a match emit its commission conversions
then its sales conversions, else emit nothing. -/
def reconcileOne (ps : List Payment) (r : Report) (idx : Nat) : List Txn × Nat :=
  match findPayment ps r with
  | none => ([], idx)
  | some p =>
      let date := paymentDate p
      let c := commissionConvs date p r.commissions idx
      let s := salesConvs date p r.sales c.2
      (c.1 ++ s.1, s.2)

/-- The reconciliation loop over all reports; the payment list is the
same full list for every report (the script never removes a matched
payment). -/
def reconcile (ps : List Payment) : List Report → Nat → List Txn × Nat
  | [], idx => ([], idx)
  | r :: rest, idx =>
      let one := reconcileOne ps r idx
      let next := reconcile ps rest one.2
      (one.1 ++ next.1, next.2)

/-! ### Deposit-log matching (`main`, lines 396-445) -/

/-- `PaymentLogEntry` namedtuple; `date = none` models a date string the
fallback left unparsed (`strptime` failed). -/
structure LogEntry where
  amount : ℚ
  currency : String
  account_name : String
  units_sold : Int
  date : Option Nat
  transaction_id : String
  deriving Repr, DecidableEq

/-- The inner deposit-search loop: the first still-unconsumed log entry
with a parseable date whose amount equals the batch's settled amount and
whose date is strictly after the batch's estimated date; returns the
deposit date and the log with that entry popped. -/
def findDeposit : List LogEntry → Payment → Option (Nat × List LogEntry)
  | [], _ => none
  | e :: rest, p =>
      match e.date with
      | none => (findDeposit rest p).map fun x => (x.1, e :: x.2)
      | some d =>
          if e.amount = p.amount ∧ p.estimated_date < d then some (d, rest)
          else (findDeposit rest p).map fun x => (x.1, e :: x.2)

/-- The matching condition of the deposit-search loop: the log entry has
a parseable date `d`, its amount equals the batch's settled amount, and
`d` is strictly after the batch's estimated period-start date. -/
def depSat (p : Payment) (e : LogEntry) (d : Nat) : Prop :=
  e.date = some d ∧ e.amount = p.amount ∧ p.estimated_date < d

instance (p : Payment) (e : LogEntry) (d : Nat) : Decidable (depSat p e d) := by
  unfold depSat
  infer_instance

/-- Date rewrite of one output row (`new_row[0] = new_date_str`). -/
def rewriteEntry (d : Nat) (e : Entry) : Entry :=
  { e with date := d }

/-- Date rewrite of one transaction and all its entries. -/
def rewriteTxn (d : Nat) (t : Txn) : Txn :=
  ⟨d, t.entries.map (rewriteEntry d)⟩

/-- Date rewrite of one price record (`new_c[0] = new_date_str`). -/
def rewriteRecord (d : Nat) (c : PriceRecord) : PriceRecord :=
  { c with date := d }

/-- The shared target-currency consistency check of both output loops
(`if target_currency == None: ... else: assert ...`). -/
def checkTarget (target : Option String) (p : Payment) :
    Except RunError (Option String) :=
  match target with
  | none => .ok p.bank_currency
  | some t =>
      if p.bank_currency = some t then .ok (some t)
      else .error .multipleBankCurrencies

/-- The payment-log matching loop: for each batch in input order, consume
the first satisfying deposit record, rewrite every entry date and price
record date of that batch to the deposit date, and abort when a batch
has no satisfying record. -/
def matchDeposits : List LogEntry → Option String → List Payment →
    Except RunError (List Txn × List PriceRecord × Option String)
  | _, target, [] => .ok ([], [], target)
  | log, target, p :: ps =>
      match findDeposit log p with
      | none => .error .noMatchingDeposit
      | some (d, log1) =>
          match checkTarget target p with
          | .error e => .error e
          | .ok target1 =>
              match matchDeposits log1 target1 ps with
              | .error e => .error e
              | .ok next =>
                  .ok (p.transactions.map (rewriteTxn d) ++ next.1,
                       p.conversion.map (rewriteRecord d) ++ next.2.1,
                       next.2.2)

/-- The fallback output loop when no payment log is supplied: batch
transactions and price records are kept at their nominal dates. -/
def fallbackCollect : Option String → List Payment →
    Except RunError (List Txn × List PriceRecord × Option String)
  | target, [] => .ok ([], [], target)
  | target, p :: ps =>
      match checkTarget target p with
      | .error e => .error e
      | .ok target1 =>
          match fallbackCollect target1 ps with
          | .error e => .error e
          | .ok next =>
              .ok (p.transactions ++ next.1, p.conversion ++ next.2.1,
                   next.2.2)

/-! ### Output writer (`write_transactions`) -/

/-- `write_transactions` without the file I/O: stable sort of the
transactions by date, then concatenation of their entry rows.  The
function performs no balance check of any kind. -/
def writeTransactions (ts : List Txn) : List Entry :=
  (ts.mergeSort fun a b => a.date ≤ b.date).flatMap fun t => t.entries

/-! ### Whole-run composition (`main`) -/

/-- The sales-report parsing loop of `main` (all non-CSV files, in input
order); each input is `(start_date, end_date, rows)`. -/
def parseReports : List (String × String × List SaleRow) → Nat →
    Except RunError (List Report × Nat)
  | [], idx => .ok ([], idx)
  | (sd, ed, rows) :: rest, idx =>
      match parseReport sd ed rows idx with
      | .error e => .error e
      | .ok (r, idx1) =>
          match parseReports rest idx1 with
          | .error e => .error e
          | .ok (rs, idx2) => .ok (r :: rs, idx2)

/-- The settlement-statement parsing loop of `main` (all CSV files, in
input order); each input is `(header date, tables)`. -/
def parsePaymentFiles : List (Nat × List PaymentTable) → Nat →
    Except RunError (List Payment × Nat)
  | [], idx => .ok ([], idx)
  | (d, tbls) :: rest, idx =>
      match parsePaymentCsv d tbls idx with
      | .error e => .error e
      | .ok (ps, idx1) =>
          match parsePaymentFiles rest idx1 with
          | .error e => .error e
          | .ok (ps2, idx2) => .ok (ps ++ ps2, idx2)

/-- The result of the generation stages of a run, before the optional
deposit-log stage and the writers. -/
structure RunResult where
  reports : List Report
  payments : List Payment
  convTxns : List Txn
  finalIdx : Nat
  deriving Repr, DecidableEq

/-- The generation stages of `main` in execution order: parse every
sales report, then every settlement statement, then reconcile, threading
the (optionally seeded) transaction counter throughout. -/
def runAll (reportsIn : List (String × String × List SaleRow))
    (paymentsIn : List (Nat × List PaymentTable)) (seed : Nat) :
    Except RunError RunResult :=
  match parseReports reportsIn seed with
  | .error e => .error e
  | .ok (reports, i1) =>
      match parsePaymentFiles paymentsIn i1 with
      | .error e => .error e
      | .ok (payments, i2) =>
          let conv := reconcile payments reports i2
          .ok ⟨reports, payments, conv.1, conv.2⟩

/-- Every transaction a run emits, in generation order. -/
def genTxns (res : RunResult) : List Txn :=
  (res.reports.flatMap fun r => r.transactions) ++
    (res.payments.flatMap fun p => p.transactions) ++ res.convTxns

/-! ### Measurements used by the statements -/

/-- The plain sum of the amount fields of a transaction's entries. -/
def esum (t : Txn) : ℚ :=
  (t.entries.map fun e => e.amount).sum

/-- The bank-currency value of an entry: its amount weighted by its price
annotation, a zero annotation meaning the amount is already in bank
currency (weight 1). -/
def weight (e : Entry) : ℚ :=
  if e.price = 0 then e.amount else e.amount * e.price

/-- The price-weighted sum of a transaction's entries. -/
def wsum (t : Txn) : ℚ :=
  (t.entries.map weight).sum

/-- The transaction numbers of a row stream, in emission order. -/
def txnNumbers (ts : List Txn) : List Nat :=
  ts.flatMap fun t => t.entries.map fun e => e.number

/-- Collapse of adjacent duplicates: the per-group number sequence of a
row stream in which each group's rows are adjacent. -/
def dedupAdj : List Nat → List Nat
  | [] => []
  | [a] => [a]
  | a :: b :: rest =>
      if a = b then dedupAdj (b :: rest) else a :: dedupAdj (b :: rest)

/-! ### Concrete inputs used by witnesses and counterexamples -/

/-- A currency line whose printed exchange rate (0.5) differs from the
effective rate `proceeds / total = 0.9`. -/
def mismatchRow : PaymentRow :=
  ⟨"EUR", 100, 0, 0, 0, 100, some (1/2), 90, "USD"⟩

/-- A one-line table settling 90 USD for 100 EUR. -/
def mismatchTable : PaymentTable :=
  ⟨[mismatchRow], 90, "acct"⟩

/-- The payment batch `processTable` builds from `mismatchTable`. -/
def ratePayment : Payment :=
  { bank_currency := some "USD"
    transactions :=
      [⟨5, [⟨5, "Assets:Accounts Receivable", 90, 0, "acct", "", 0⟩,
            ⟨5, "Assets:Accounts Receivable:EUR", -100, 0, "acct", "", 9/10⟩]⟩]
    conversion := [⟨5, 1/2, "CURRENCY", "EUR", "USD"⟩]
    amount := 90
    estimated_date := 5
    currency_data := [⟨"EUR", 100, 0, 0, 0, 100, 1/2, 90, "USD"⟩] }

/-- A report whose earned total matches `ratePayment`'s EUR line. -/
def rateReport : Report :=
  ⟨["EUR"], [], "s", "e", [("EUR", 10)], [("EUR", 100)], [("EUR", 40)]⟩

/-- One sale: quantity 2, customer price 9.99 USD, partner share 6.99 USD. -/
def saleRowEg : SaleRow :=
  ⟨3, "t", 2, 699/100, "USD", 999/100, "USD"⟩

/-- A settlement table whose USD line earns exactly what `saleRowEg`
accumulates (13.98), at exchange rate 1. -/
def usdTable : PaymentTable :=
  ⟨[⟨"USD", 699/50, 0, 0, 0, 699/50, some 1, 699/50, "USD"⟩], 699/50, "acct"⟩

/-- The payment batch `processTable` builds from `usdTable` at counter
`idx`. -/
def usdPayment (idx : Nat) : Payment :=
  { bank_currency := some "USD"
    transactions :=
      [⟨5, [⟨5, "Assets:Accounts Receivable", 699/50, idx, "acct", "", 0⟩,
            ⟨5, "Assets:Accounts Receivable:USD", -(699/50), idx, "acct", "", 1⟩]⟩]
    conversion := []
    amount := 699/50
    estimated_date := 5
    currency_data := [⟨"USD", 699/50, 0, 0, 0, 699/50, 1, 699/50, "USD"⟩] }

/-- The report `parseReport` builds from `[saleRowEg]` at counter `idx`. -/
def saleReportAt (idx : Nat) : Report :=
  ⟨["USD"], [⟨3, rowEntries saleRowEg idx⟩], "s", "e",
    [("USD", 6)], [("USD", 699/50)], [("USD", 999/50)]⟩

/-- The settlement table of the specification's end-to-end scenario: one
line `total = 100.00`, `proceeds = 90.00`, summary amount 90. -/
def balancedTable : PaymentTable :=
  ⟨[⟨"USD", 80, 0, 0, 0, 100, some (9/10), 90, "USD"⟩], 90, "acct"⟩

/-- The same table with summary amount 91. -/
def unbalancedTable : PaymentTable :=
  ⟨[⟨"USD", 80, 0, 0, 0, 100, some (9/10), 90, "USD"⟩], 91, "acct"⟩

/-- A currency table whose only data row has a blank exchange-rate cell,
with a summary amount that matches no proceeds sum. -/
def blankRateTable : PaymentTable :=
  ⟨[⟨"JPY", 50, 0, 0, 0, 50, none, 48, "USD"⟩], 12345, "acct"⟩

/-- A transaction whose single entry leaves a non-zero sum. -/
def unbalancedTxn : Txn :=
  ⟨1, [⟨1, "Assets:Accounts Receivable", 5, 0, "", "", 0⟩]⟩

/-- A deposit-log entry matching no payment of the examples. -/
def logEntryEg : LogEntry :=
  ⟨5, "USD", "acct", 1, some 3, "id"⟩

/-- The result of the full example run: one single-sale report, one
one-line USD settlement table at rate 1, seeded at 7: the sale group
takes number 7, the batch 8, the commission conversion 9, the sales
conversion 10, and the final counter is 11. -/
def runResultEg : RunResult :=
  ⟨[saleReportAt 7], [usdPayment 8],
   [⟨5, [⟨5, "Expenses:Commissions", 6, 9, "Commission USD", "", 0⟩,
         ⟨5, "Expenses:Commissions:USD", -6, 9, "Commission USD", "", 1⟩]⟩,
    ⟨5, [⟨5, "Income:Sales:USD", 999/50, 10, "Sales Conversion USD", "", 1⟩,
         ⟨5, "Income:Sales", -(999/50 * 1), 10, "Sales Conversion USD", "",
           0⟩]⟩],
   11⟩

/-- Non-degeneracy of a parsed currency line: non-zero total (the code
divides by it), non-zero proceeds and non-zero printed exchange rate
(a zero price annotation means "no conversion", so a conversion leg with
rate 0 would not balance in value). -/
def GoodLine (cd : CurrencyData) : Prop :=
  cd.total ≠ 0 ∧ cd.proceeds ≠ 0 ∧ cd.exchange_rate ≠ 0

instance (cd : CurrencyData) : Decidable (GoodLine cd) := by
  unfold GoodLine
  infer_instance

/-- The number streams the counter can generate: maximal runs of one or
more rows sharing a number, the numbers increasing by exactly one from
block to block, covering `[i, j)`. -/
inductive BlockSeq : Nat → Nat → List Nat → Prop where
  | nil (i : Nat) : BlockSeq i i []
  | cons (i j : Nat) (l : List Nat) (n : Nat) (hn : 0 < n)
      (h : BlockSeq (i + 1) j l) : BlockSeq i j (List.replicate n i ++ l)

end A2C

deriving instance DecidableEq for Except

namespace A2C

/-! ### Helper lemmas -/

/-- The only error `foldBank` can produce is the multiple-bank-currencies
assertion. -/
theorem foldBank_error :
    ∀ (cl : List CurrencyData) (acc : Option String) (e : RunError),
      foldBank acc cl = .error e → e = .multipleBankCurrencies := by
  intro cl
  induction cl with
  | nil => intro acc e h; simp [foldBank] at h
  | cons cd rest ih =>
      intro acc e h
      match acc with
      | none => exact ih _ _ h
      | some b =>
          rw [foldBank] at h
          by_cases hb : b = cd.bank_currency
          · rw [if_pos hb] at h
            exact ih _ _ h
          · rw [if_neg hb] at h
            exact (Except.error.injEq _ _).mp h.symm

/-- A block sequence covers a weakly increasing interval. -/
theorem BlockSeq.le_of {i j : Nat} {l : List Nat} (h : BlockSeq i j l) :
    i ≤ j := by
  induction h with
  | nil => exact le_refl _
  | cons i j l n hn h ih => exact Nat.le_of_succ_le ih

/-- Block sequences compose by concatenation. -/
theorem BlockSeq.append_seq {i j k : Nat} {xs ys : List Nat}
    (h1 : BlockSeq i j xs) (h2 : BlockSeq j k ys) :
    BlockSeq i k (xs ++ ys) := by
  induction h1 with
  | nil => simpa using h2
  | cons i j l n hn h ih =>
      rw [List.append_assoc]
      exact BlockSeq.cons _ _ _ n hn (ih h2)

/-- An empty block sequence covers an empty interval. -/
theorem blockSeq_nil_eq {a b : Nat} {l : List Nat} (h : BlockSeq a b l) :
    l = [] → a = b := by
  induction h with
  | nil => intro _; rfl
  | cons i j l n hn h ih =>
      intro hl
      obtain ⟨h1, -⟩ := List.append_eq_nil.mp hl
      obtain ⟨m, rfl⟩ := Nat.exists_eq_succ_of_ne_zero (Nat.pos_iff_ne_zero.mp hn)
      simp [List.replicate_succ] at h1

/-- A nonempty block sequence starts with its lower bound. -/
theorem blockSeq_head {a b : Nat} {l : List Nat} (h : BlockSeq a b l) :
    l = [] ∨ ∃ l2, l = a :: l2 := by
  induction h with
  | nil => exact Or.inl rfl
  | cons i j l n hn h ih =>
      right
      obtain ⟨m, rfl⟩ := Nat.exists_eq_succ_of_ne_zero (Nat.pos_iff_ne_zero.mp hn)
      exact ⟨List.replicate m i ++ l, by rw [List.replicate_succ, List.cons_append]⟩

/-- Adjacent duplicates in a leading run collapse to one element. -/
theorem dedupAdj_replicate :
    ∀ (n a : Nat) (l : List Nat), 0 < n →
      dedupAdj (List.replicate n a ++ l) = dedupAdj (a :: l) := by
  intro n
  induction n with
  | zero =>
      intro a l h
      exact absurd h (by simp)
  | succ m ih =>
      intro a l h
      cases m with
      | zero => simp [List.replicate_succ]
      | succ k =>
          rw [List.replicate_succ, List.cons_append, List.replicate_succ,
            List.cons_append, dedupAdj, if_pos rfl, ← List.cons_append,
            ← List.replicate_succ]
          exact ih a l (Nat.succ_pos k)

/-- `dedupAdj` keeps a head that differs from its successor. -/
theorem dedupAdj_cons_of (a : Nat) (l : List Nat)
    (h : l = [] ∨ ∃ b l2, l = b :: l2 ∧ b ≠ a) :
    dedupAdj (a :: l) = a :: dedupAdj l := by
  rcases h with rfl | ⟨b, l2, rfl, hb⟩
  · rfl
  · rw [dedupAdj, if_neg fun hh => hb hh.symm]

/-- The group numbers of a block sequence over `[i, j)` are exactly
`i, i+1, ..., j-1` in order. -/
theorem dedupAdj_of_blockSeq {i j : Nat} {l : List Nat}
    (h : BlockSeq i j l) : dedupAdj l = List.range' i (j - i) := by
  induction h with
  | nil => simp [dedupAdj]
  | cons i j l n hn h ih =>
      rw [dedupAdj_replicate n i l hn]
      have hij : i + 1 ≤ j := h.le_of
      have hd : dedupAdj (i :: l) = i :: dedupAdj l := by
        apply dedupAdj_cons_of
        rcases blockSeq_head h with rfl | ⟨l2, rfl⟩
        · exact Or.inl rfl
        · exact Or.inr ⟨i + 1, l2, rfl, Nat.succ_ne_self i⟩
      rw [hd, ih]
      have hsub : j - i = (j - (i + 1)) + 1 := by omega
      rw [hsub, List.range'_succ]

/-- Characterization of a successful `processTable` call that produced a
batch: the parsed line list is nonempty, the balance check passed, the
bank fold succeeded, and the batch is exactly the record the code
builds. -/
theorem processTable_ok_some {date : Nat} {tbl : PaymentTable} {idx i : Nat}
    {p : Payment} (h : processTable date tbl idx = .ok (some p, i)) :
    parseCurrencyList tbl.rows ≠ [] ∧
    sumProceeds (parseCurrencyList tbl.rows) = tbl.amount ∧
    ∃ bank, foldBank none (parseCurrencyList tbl.rows) = .ok bank ∧
      p = { bank_currency := bank
            transactions := [⟨date,
              recvEntries date tbl.account tbl.amount idx
                  (parseCurrencyList tbl.rows) ++
                (taxAdjEntries date (parseCurrencyList tbl.rows) (idx + 1)).1⟩]
            conversion := convRecords date (parseCurrencyList tbl.rows)
            amount := tbl.amount
            estimated_date := date
            currency_data := parseCurrencyList tbl.rows } ∧
      i = (taxAdjEntries date (parseCurrencyList tbl.rows) (idx + 1)).2 := by
  by_cases h1 : parseCurrencyList tbl.rows = []
  · simp only [processTable] at h
    rw [if_pos h1] at h
    exact absurd h (by simp)
  · simp only [processTable] at h
    rw [if_neg h1] at h
    by_cases h2 : sumProceeds (parseCurrencyList tbl.rows) ≠ tbl.amount
    · rw [if_pos h2] at h
      exact Except.noConfusion h
    · rw [if_neg h2] at h
      cases hfb : foldBank none (parseCurrencyList tbl.rows) with
      | error e => rw [hfb] at h; exact Except.noConfusion h
      | ok bank =>
          rw [hfb] at h
          simp only at h
          rw [Except.ok.injEq, Prod.mk.injEq] at h
          obtain ⟨hp, hi⟩ := h
          obtain rfl := (Option.some.injEq _ _).mp hp
          exact ⟨h1, not_not.mp h2, bank, rfl, rfl, hi.symm⟩

/-- A successful `processTable` call that produced no batch: every
exchange-rate cell was blank and the counter is untouched. -/
theorem processTable_ok_none {date : Nat} {tbl : PaymentTable} {idx i : Nat}
    (h : processTable date tbl idx = .ok (none, i)) :
    parseCurrencyList tbl.rows = [] ∧ i = idx := by
  by_cases h1 : parseCurrencyList tbl.rows = []
  · simp only [processTable] at h
    rw [if_pos h1] at h
    rw [Except.ok.injEq, Prod.mk.injEq] at h
    exact ⟨h1, h.2.symm⟩
  · simp only [processTable] at h
    rw [if_neg h1] at h
    by_cases h2 : sumProceeds (parseCurrencyList tbl.rows) ≠ tbl.amount
    · rw [if_pos h2] at h
      exact Except.noConfusion h
    · rw [if_neg h2] at h
      cases hfb : foldBank none (parseCurrencyList tbl.rows) with
      | error e => rw [hfb] at h; exact Except.noConfusion h
      | ok bank =>
          rw [hfb] at h
          simp only at h
          rw [Except.ok.injEq, Prod.mk.injEq] at h
          exact absurd h.1 (by simp)

/-- `txnNumbers` distributes over concatenation. -/
theorem txnNumbers_append (xs ys : List Txn) :
    txnNumbers (xs ++ ys) = txnNumbers xs ++ txnNumbers ys :=
  List.flatMap_append xs ys _

/-- The numbers of a one-transaction stream. -/
theorem txnNumbers_singleton (t : Txn) :
    txnNumbers [t] = t.entries.map fun e => e.number := by
  simp [txnNumbers]

/-- A successful `reportStep` requires matching currencies and produces
exactly the state update of the row-loop body. -/
theorem reportStep_ok {s : RState} {r : SaleRow} {s2 : RState}
    (h : reportStep s r = .ok s2) :
    s2 = { currencies := setAdd s.currencies r.customer_currency
           transactions := s.transactions ++
             [⟨r.settlement_date, rowEntries r s.idx⟩]
           commissions := mapAdd s.commissions r.customer_currency
             ((|r.customer_price| - |r.partner_share|) * (r.quantity : ℚ))
           earned := mapAdd s.earned r.customer_currency
             (|r.partner_share| * (r.quantity : ℚ))
           sales := mapAdd s.sales r.customer_currency
             (|r.customer_price| * (r.quantity : ℚ))
           idx := s.idx + 1 } := by
  by_cases hc : r.partner_share_currency ≠ r.customer_currency
  · rw [reportStep, if_pos hc] at h
    exact Except.noConfusion h
  · simp only [reportStep] at h
    rw [if_neg hc] at h
    exact ((Except.ok.injEq _ _).mp h).symm

/-- The three entries of a sales row share the row's number. -/
theorem rowEntries_nums (r : SaleRow) (idx : Nat) :
    (rowEntries r idx).map (fun e => e.number) = List.replicate 3 idx := rfl

/-- The three entries of a sales row sum to zero, plainly and
price-weighted (all three carry price 0). -/
theorem rowEntries_sums (r : SaleRow) (idx : Nat) :
    esum ⟨r.settlement_date, rowEntries r idx⟩ = 0 ∧
    wsum ⟨r.settlement_date, rowEntries r idx⟩ = 0 := by
  constructor <;> simp [esum, wsum, rowEntries, weight] <;> ring

/-- Row-loop invariants: the loop appends one 3-entry group per row with
consecutive fresh numbers, and preserves the zero-sum property of the
accumulated transactions. -/
theorem reportRows_props :
    ∀ (rows : List SaleRow) (s s1 : RState), reportRows s rows = .ok s1 →
      (∃ l, txnNumbers s1.transactions = txnNumbers s.transactions ++ l ∧
        BlockSeq s.idx s1.idx l) ∧
      ((∀ t ∈ s.transactions, esum t = 0 ∧ wsum t = 0) →
        ∀ t ∈ s1.transactions, esum t = 0 ∧ wsum t = 0) := by
  intro rows
  induction rows with
  | nil =>
      intro s s1 h
      rw [reportRows] at h
      obtain rfl := (Except.ok.injEq _ _).mp h
      exact ⟨⟨[], (List.append_nil _).symm, BlockSeq.nil _⟩, fun h2 => h2⟩
  | cons r rest ih =>
      intro s s1 h
      rw [reportRows] at h
      cases hstep : reportStep s r with
      | error e => rw [hstep] at h; exact Except.noConfusion h
      | ok s2 =>
          rw [hstep] at h
          obtain ⟨⟨l, hl, hbs⟩, hz⟩ := ih s2 s1 h
          obtain rfl := reportStep_ok hstep
          constructor
          · refine ⟨(rowEntries r s.idx).map (fun e => e.number) ++ l, ?_, ?_⟩
            · rw [hl]
              simp only [txnNumbers_append, txnNumbers_singleton]
              rw [List.append_assoc]
            · rw [rowEntries_nums]
              exact BlockSeq.cons _ _ _ 3 (by norm_num) hbs
          · intro hzs
            refine hz ?_
            intro t ht
            rcases List.mem_append.mp ht with hm | hm
            · exact hzs t hm
            · obtain rfl := List.mem_singleton.mp hm
              exact rowEntries_sums r s.idx

/-- `parse_app_store_connect_report` numbers its per-sale groups
consecutively from the entry counter and every emitted transaction sums
to zero, plainly and price-weighted. -/
theorem parseReport_props {sd ed : String} {rows : List SaleRow}
    {idx : Nat} {rep : Report} {i : Nat}
    (h : parseReport sd ed rows idx = .ok (rep, i)) :
    BlockSeq idx i (txnNumbers rep.transactions) ∧
    ∀ t ∈ rep.transactions, esum t = 0 ∧ wsum t = 0 := by
  rw [parseReport] at h
  cases hrr : reportRows ⟨[], [], [], [], [], idx⟩ rows with
  | error e => rw [hrr] at h; exact Except.noConfusion h
  | ok s =>
      rw [hrr] at h
      simp only at h
      rw [Except.ok.injEq, Prod.mk.injEq] at h
      obtain ⟨rfl, rfl⟩ := h
      obtain ⟨⟨l, hl, hbs⟩, hz⟩ := reportRows_props rows _ _ hrr
      constructor
      · have hinit : txnNumbers s.transactions = l := by simpa using hl
        simpa [hinit] using hbs
      · intro t ht
        refine hz ?_ t ht
        intro t2 ht2
        exact absurd ht2 (List.not_mem_nil t2)

/-- The sales-report parsing loop of `main`: consecutive numbering
across all reports, and every emitted transaction sums to zero. -/
theorem parseReports_props :
    ∀ (ins : List (String × String × List SaleRow)) (idx : Nat)
      (rs : List Report) (i : Nat),
      parseReports ins idx = .ok (rs, i) →
      BlockSeq idx i (txnNumbers (rs.flatMap fun rep => rep.transactions)) ∧
      ∀ rep ∈ rs, ∀ t ∈ rep.transactions, esum t = 0 ∧ wsum t = 0 := by
  intro ins
  induction ins with
  | nil =>
      intro idx rs i h
      rw [parseReports] at h
      rw [Except.ok.injEq, Prod.mk.injEq] at h
      obtain ⟨rfl, rfl⟩ := h
      exact ⟨BlockSeq.nil _, by simp⟩
  | cons pr rest ih =>
      intro idx rs i h
      obtain ⟨sd, ed, rows⟩ := pr
      rw [parseReports] at h
      cases hpr : parseReport sd ed rows idx with
      | error e => rw [hpr] at h; exact Except.noConfusion h
      | ok v =>
          obtain ⟨rep, idx1⟩ := v
          rw [hpr] at h
          simp only at h
          cases hrest : parseReports rest idx1 with
          | error e => rw [hrest] at h; exact Except.noConfusion h
          | ok v2 =>
              obtain ⟨rs2, i2⟩ := v2
              rw [hrest] at h
              simp only at h
              rw [Except.ok.injEq, Prod.mk.injEq] at h
              obtain ⟨rfl, rfl⟩ := h
              obtain ⟨hb1, hz1⟩ := parseReport_props hpr
              obtain ⟨hb2, hz2⟩ := ih idx1 rs2 i2 hrest
              constructor
              · rw [List.flatMap_cons, txnNumbers_append]
                exact hb1.append_seq hb2
              · intro rep2 hmem
                rcases List.mem_cons.mp hmem with rfl | hm
                · exact hz1
                · exact hz2 rep2 hm

/-- The receivable legs of a batch all carry the batch's number. -/
theorem recvEntries_nums (date : Nat) (account : String) (amount : ℚ)
    (idx : Nat) (cl : List CurrencyData) :
    (recvEntries date account amount idx cl).map (fun e => e.number) =
      List.replicate (cl.length + 1) idx := by
  rw [recvEntries, List.replicate_succ]
  simp [List.map_map, Function.comp_def, List.map_const']

/-- The taxes-and-adjustments loop numbers its groups consecutively from
its starting counter. -/
theorem taxAdjEntries_nums (date : Nat) :
    ∀ (cl : List CurrencyData) (j : Nat),
      BlockSeq j (taxAdjEntries date cl j).2
        ((taxAdjEntries date cl j).1.map fun e => e.number) := by
  intro cl
  induction cl with
  | nil =>
      intro j
      exact BlockSeq.nil j
  | cons cd rest ih =>
      intro j
      simp only [taxAdjEntries]
      by_cases hz : cd.input_tax + cd.witholding + cd.adjustments = 0
      · rw [if_pos hz]
        exact ih j
      · rw [if_neg hz]
        by_cases h3 : cd.input_tax + cd.witholding ≠ 0
        · rw [if_pos h3]
          by_cases h4 : cd.adjustments ≠ 0
          · rw [if_pos h4]
            exact BlockSeq.cons _ _ _ 3 (by norm_num) (ih (j + 1))
          · rw [if_neg h4]
            exact BlockSeq.cons _ _ _ 2 (by norm_num) (ih (j + 1))
        · rw [if_neg h3]
          by_cases h4 : cd.adjustments ≠ 0
          · rw [if_pos h4]
            exact BlockSeq.cons _ _ _ 2 (by norm_num) (ih (j + 1))
          · rw [if_neg h4]
            exact BlockSeq.cons _ _ _ 1 (by norm_num) (ih (j + 1))

/-- The per-currency receivable legs are worth `-proceeds` each in bank
currency: their amounts weighted by the effective-rate annotation. -/
theorem recvTail_weight (date : Nat) (account : String) (idx : Nat) :
    ∀ (cl : List CurrencyData), (∀ cd ∈ cl, GoodLine cd) →
      ((cl.map fun cd => weight
        ⟨date, "Assets:Accounts Receivable:" ++ cd.currency, -cd.total, idx,
          account, "", cd.proceeds / cd.total⟩)).sum = -sumProceeds cl := by
  intro cl
  induction cl with
  | nil =>
      intro h
      simp [sumProceeds]
  | cons cd rest ih =>
      intro h
      have hcd := h cd (List.mem_cons_self _ _)
      have hr : cd.proceeds / cd.total ≠ 0 := div_ne_zero hcd.2.1 hcd.1
      have hw : weight ⟨date, "Assets:Accounts Receivable:" ++ cd.currency,
          -cd.total, idx, account, "", cd.proceeds / cd.total⟩ =
          -cd.proceeds := by
        rw [weight, if_neg hr]
        show -cd.total * (cd.proceeds / cd.total) = -cd.proceeds
        rw [neg_mul, mul_comm, div_mul_cancel₀ cd.proceeds hcd.1]
      rw [List.map_cons, List.sum_cons, hw,
        ih fun x hx => h x (List.mem_cons_of_mem _ hx)]
      simp [sumProceeds]
      ring

/-- The weighted sum of a batch's receivable legs is the settled amount
minus the sum of the proceeds. -/
theorem recvEntries_weight (date : Nat) (account : String) (amount : ℚ)
    (idx : Nat) (cl : List CurrencyData) (h : ∀ cd ∈ cl, GoodLine cd) :
    ((recvEntries date account amount idx cl).map weight).sum =
      amount - sumProceeds cl := by
  rw [recvEntries, List.map_cons, List.sum_cons]
  have hw : weight ⟨date, "Assets:Accounts Receivable", amount, idx, account,
      "", 0⟩ = amount := by
    rw [weight, if_pos rfl]
  rw [hw, List.map_map]
  simp only [Function.comp_def]
  rw [recvTail_weight date account idx cl h]
  ring

/-- Every tax/adjustment group is internally balanced in bank-currency
value: the expense legs are already converted, the receivable leg is
converted by its price annotation. -/
theorem taxAdjEntries_weight (date : Nat) :
    ∀ (cl : List CurrencyData) (j : Nat), (∀ cd ∈ cl, GoodLine cd) →
      (((taxAdjEntries date cl j).1.map weight)).sum = 0 := by
  intro cl
  induction cl with
  | nil =>
      intro j h
      simp [taxAdjEntries]
  | cons cd rest ih =>
      intro j h
      have hcd := h cd (List.mem_cons_self _ _)
      have hrest := fun x hx => h x (List.mem_cons_of_mem _ hx)
      have hr : cd.proceeds / cd.total ≠ 0 := div_ne_zero hcd.2.1 hcd.1
      simp only [taxAdjEntries]
      by_cases hz : cd.input_tax + cd.witholding + cd.adjustments = 0
      · rw [if_pos hz]
        exact ih j hrest
      · rw [if_neg hz]
        by_cases h3 : cd.input_tax + cd.witholding ≠ 0
        · rw [if_pos h3]
          by_cases h4 : cd.adjustments ≠ 0
          · rw [if_pos h4]
            simp only [List.cons_append, List.singleton_append, List.nil_append,
              List.map_cons, List.sum_cons]
            rw [ih (j + 1) hrest]
            simp [weight, hr]
            ring
          · rw [if_neg h4]
            simp only [List.cons_append, List.singleton_append, List.nil_append,
              List.map_cons, List.sum_cons]
            rw [ih (j + 1) hrest]
            simp [weight, hr]
            linear_combination cd.proceeds * cd.total⁻¹ * not_not.mp h4
        · rw [if_neg h3]
          by_cases h4 : cd.adjustments ≠ 0
          · rw [if_pos h4]
            simp only [List.cons_append, List.singleton_append, List.nil_append,
              List.map_cons, List.sum_cons]
            rw [ih (j + 1) hrest]
            simp [weight, hr]
            linear_combination cd.proceeds * cd.total⁻¹ * not_not.mp h3
          · rw [if_neg h4]
            exfalso
            apply hz
            rw [not_not.mp h3, not_not.mp h4, add_zero]

/-- A batch produced by `processTable`: consecutive group numbers from
the entry counter, price-weighted balance of its single transaction, and
non-degenerate currency data. -/
theorem processTable_some_props {date : Nat} {tbl : PaymentTable}
    {idx i : Nat} {p : Payment}
    (h : processTable date tbl idx = .ok (some p, i))
    (hg : ∀ cd ∈ parseCurrencyList tbl.rows, GoodLine cd) :
    BlockSeq idx i (txnNumbers p.transactions) ∧
    (∀ t ∈ p.transactions, wsum t = 0) ∧
    (∀ cd ∈ p.currency_data, GoodLine cd) := by
  obtain ⟨hne, hsum, bank, hfb, rfl, rfl⟩ := processTable_ok_some h
  refine ⟨?_, ?_, hg⟩
  · rw [txnNumbers_singleton]
    simp only [List.map_append]
    rw [recvEntries_nums]
    exact BlockSeq.cons _ _ _ ((parseCurrencyList tbl.rows).length + 1)
      (Nat.succ_pos _) (taxAdjEntries_nums date _ (idx + 1))
  · intro t ht
    obtain rfl := List.mem_singleton.mp ht
    rw [wsum]
    simp only [List.map_append, List.sum_append]
    rw [recvEntries_weight date tbl.account tbl.amount idx _ hg,
      taxAdjEntries_weight date _ _ hg, hsum]
    ring

/-- The table loop of `parse_payment_csv`: consecutive numbering across
batches, every batch transaction balanced in weighted value, every batch
carrying non-degenerate currency data. -/
theorem parsePaymentCsv_props (date : Nat) :
    ∀ (tables : List PaymentTable) (idx : Nat) (ps : List Payment) (i : Nat),
      parsePaymentCsv date tables idx = .ok (ps, i) →
      (∀ tbl ∈ tables, ∀ cd ∈ parseCurrencyList tbl.rows, GoodLine cd) →
      BlockSeq idx i (txnNumbers (ps.flatMap fun p => p.transactions)) ∧
      ∀ p ∈ ps, (∀ t ∈ p.transactions, wsum t = 0) ∧
        ∀ cd ∈ p.currency_data, GoodLine cd := by
  intro tables
  induction tables with
  | nil =>
      intro idx ps i h hg
      rw [parsePaymentCsv] at h
      rw [Except.ok.injEq, Prod.mk.injEq] at h
      obtain ⟨rfl, rfl⟩ := h
      exact ⟨BlockSeq.nil _, by simp⟩
  | cons tbl rest ih =>
      intro idx ps i h hg
      rw [parsePaymentCsv] at h
      cases hpt : processTable date tbl idx with
      | error e => rw [hpt] at h; exact Except.noConfusion h
      | ok v =>
          obtain ⟨po, idx1⟩ := v
          rw [hpt] at h
          simp only at h
          cases hrest : parsePaymentCsv date rest idx1 with
          | error e => rw [hrest] at h; exact Except.noConfusion h
          | ok v2 =>
              obtain ⟨ps2, i2⟩ := v2
              rw [hrest] at h
              simp only at h
              have hgrest := fun tbl2 h2 => hg tbl2 (List.mem_cons_of_mem _ h2)
              obtain ⟨hb2, hz2⟩ := ih idx1 ps2 i2 hrest hgrest
              cases po with
              | none =>
                  rw [Except.ok.injEq, Prod.mk.injEq] at h
                  obtain ⟨rfl, rfl⟩ := h
                  obtain ⟨-, rfl⟩ := processTable_ok_none hpt
                  exact ⟨hb2, hz2⟩
              | some payment =>
                  rw [Except.ok.injEq, Prod.mk.injEq] at h
                  obtain ⟨rfl, rfl⟩ := h
                  obtain ⟨hb1, hw1, hg1⟩ := processTable_some_props hpt
                    (hg tbl (List.mem_cons_self _ _))
                  constructor
                  · rw [List.flatMap_cons, txnNumbers_append]
                    exact hb1.append_seq hb2
                  · intro p2 hmem
                    rcases List.mem_cons.mp hmem with rfl | hm
                    · exact ⟨hw1, hg1⟩
                    · exact hz2 p2 hm

/-- The statement-file loop of `main`: consecutive numbering and the
batch properties across all settlement files. -/
theorem parsePaymentFiles_props :
    ∀ (files : List (Nat × List PaymentTable)) (idx : Nat)
      (ps : List Payment) (i : Nat),
      parsePaymentFiles files idx = .ok (ps, i) →
      (∀ f ∈ files, ∀ tbl ∈ f.2, ∀ cd ∈ parseCurrencyList tbl.rows,
        GoodLine cd) →
      BlockSeq idx i (txnNumbers (ps.flatMap fun p => p.transactions)) ∧
      ∀ p ∈ ps, (∀ t ∈ p.transactions, wsum t = 0) ∧
        ∀ cd ∈ p.currency_data, GoodLine cd := by
  intro files
  induction files with
  | nil =>
      intro idx ps i h hg
      rw [parsePaymentFiles] at h
      rw [Except.ok.injEq, Prod.mk.injEq] at h
      obtain ⟨rfl, rfl⟩ := h
      exact ⟨BlockSeq.nil _, by simp⟩
  | cons f rest ih =>
      intro idx ps i h hg
      obtain ⟨d, tbls⟩ := f
      rw [parsePaymentFiles] at h
      cases hpc : parsePaymentCsv d tbls idx with
      | error e => rw [hpc] at h; exact Except.noConfusion h
      | ok v =>
          obtain ⟨ps1, idx1⟩ := v
          rw [hpc] at h
          simp only at h
          cases hrest : parsePaymentFiles rest idx1 with
          | error e => rw [hrest] at h; exact Except.noConfusion h
          | ok v2 =>
              obtain ⟨ps2, i2⟩ := v2
              rw [hrest] at h
              simp only at h
              rw [Except.ok.injEq, Prod.mk.injEq] at h
              obtain ⟨rfl, rfl⟩ := h
              obtain ⟨hb1, hz1⟩ := parsePaymentCsv_props d tbls idx ps1 idx1 hpc
                (fun tbl h2 => hg (d, tbls) (List.mem_cons_self _ _) tbl h2)
              obtain ⟨hb2, hz2⟩ := ih idx1 ps2 i2 hrest
                (fun f2 h2 => hg f2 (List.mem_cons_of_mem _ h2))
              constructor
              · rw [List.flatMap_append, txnNumbers_append]
                exact hb1.append_seq hb2
              · intro p2 hmem
                rcases List.mem_append.mp hmem with hm | hm
                · exact hz1 p2 hm
                · exact hz2 p2 hm

/-- The numbers of a one-transaction prefix. -/
theorem txnNumbers_cons (t : Txn) (ts : List Txn) :
    txnNumbers (t :: ts) =
      (t.entries.map fun e => e.number) ++ txnNumbers ts := by
  simp [txnNumbers]

/-- The numbering part of `processTable_some_props`, with no
side conditions. -/
theorem processTable_some_nums {date : Nat} {tbl : PaymentTable}
    {idx i : Nat} {p : Payment}
    (h : processTable date tbl idx = .ok (some p, i)) :
    BlockSeq idx i (txnNumbers p.transactions) := by
  obtain ⟨-, -, bank, -, rfl, rfl⟩ := processTable_ok_some h
  rw [txnNumbers_singleton]
  simp only [List.map_append]
  rw [recvEntries_nums]
  exact BlockSeq.cons _ _ _ ((parseCurrencyList tbl.rows).length + 1)
    (Nat.succ_pos _) (taxAdjEntries_nums date _ (idx + 1))

/-- The table loop numbers its batches consecutively, with no side
conditions. -/
theorem parsePaymentCsv_nums (date : Nat) :
    ∀ (tables : List PaymentTable) (idx : Nat) (ps : List Payment) (i : Nat),
      parsePaymentCsv date tables idx = .ok (ps, i) →
      BlockSeq idx i (txnNumbers (ps.flatMap fun p => p.transactions)) := by
  intro tables
  induction tables with
  | nil =>
      intro idx ps i h
      rw [parsePaymentCsv] at h
      rw [Except.ok.injEq, Prod.mk.injEq] at h
      obtain ⟨rfl, rfl⟩ := h
      exact BlockSeq.nil _
  | cons tbl rest ih =>
      intro idx ps i h
      rw [parsePaymentCsv] at h
      cases hpt : processTable date tbl idx with
      | error e => rw [hpt] at h; exact Except.noConfusion h
      | ok v =>
          obtain ⟨po, idx1⟩ := v
          rw [hpt] at h
          simp only at h
          cases hrest : parsePaymentCsv date rest idx1 with
          | error e => rw [hrest] at h; exact Except.noConfusion h
          | ok v2 =>
              obtain ⟨ps2, i2⟩ := v2
              rw [hrest] at h
              simp only at h
              cases po with
              | none =>
                  rw [Except.ok.injEq, Prod.mk.injEq] at h
                  obtain ⟨rfl, rfl⟩ := h
                  obtain ⟨-, rfl⟩ := processTable_ok_none hpt
                  exact ih _ _ _ hrest
              | some payment =>
                  rw [Except.ok.injEq, Prod.mk.injEq] at h
                  obtain ⟨rfl, rfl⟩ := h
                  rw [List.flatMap_cons, txnNumbers_append]
                  exact (processTable_some_nums hpt).append_seq
                    (ih _ _ _ hrest)

/-- The statement-file loop numbers its batches consecutively, with no
side conditions. -/
theorem parsePaymentFiles_nums :
    ∀ (files : List (Nat × List PaymentTable)) (idx : Nat)
      (ps : List Payment) (i : Nat),
      parsePaymentFiles files idx = .ok (ps, i) →
      BlockSeq idx i (txnNumbers (ps.flatMap fun p => p.transactions)) := by
  intro files
  induction files with
  | nil =>
      intro idx ps i h
      rw [parsePaymentFiles] at h
      rw [Except.ok.injEq, Prod.mk.injEq] at h
      obtain ⟨rfl, rfl⟩ := h
      exact BlockSeq.nil _
  | cons f rest ih =>
      intro idx ps i h
      obtain ⟨d, tbls⟩ := f
      rw [parsePaymentFiles] at h
      cases hpc : parsePaymentCsv d tbls idx with
      | error e => rw [hpc] at h; exact Except.noConfusion h
      | ok v =>
          obtain ⟨ps1, idx1⟩ := v
          rw [hpc] at h
          simp only at h
          cases hrest : parsePaymentFiles rest idx1 with
          | error e => rw [hrest] at h; exact Except.noConfusion h
          | ok v2 =>
              obtain ⟨ps2, i2⟩ := v2
              rw [hrest] at h
              simp only at h
              rw [Except.ok.injEq, Prod.mk.injEq] at h
              obtain ⟨rfl, rfl⟩ := h
              rw [List.flatMap_append, txnNumbers_append]
              exact (parsePaymentCsv_nums d tbls idx ps1 idx1 hpc).append_seq
                (ih _ _ _ hrest)

/-- `dictFind` returns one of the parsed currency lines. -/
theorem dictFind_mem {cl : List CurrencyData} {c : String} {cd : CurrencyData}
    (h : dictFind cl c = some cd) : cd ∈ cl := by
  rw [dictFind] at h
  exact List.mem_reverse.mp (List.mem_of_find?_eq_some h)

/-- The commission-conversion loop numbers its transactions
consecutively. -/
theorem commissionConvs_nums (date : Nat) (p : Payment) :
    ∀ (m : StrMap) (idx : Nat),
      BlockSeq idx (commissionConvs date p m idx).2
        (txnNumbers (commissionConvs date p m idx).1) := by
  intro m
  induction m with
  | nil =>
      intro idx
      exact BlockSeq.nil idx
  | cons ce rest ih =>
      intro idx
      rw [commissionConvs]
      cases hdf : dictFind p.currency_data ce.1 with
      | none => exact ih idx
      | some cd =>
          simp only
          by_cases hpos : 0 < ce.2
          · rw [if_pos hpos]
            rw [txnNumbers_cons]
            exact BlockSeq.cons _ _ _ 2 (by norm_num) (ih (idx + 1))
          · rw [if_neg hpos]
            exact ih idx

/-- The sales-conversion loop numbers its transactions consecutively. -/
theorem salesConvs_nums (date : Nat) (p : Payment) :
    ∀ (m : StrMap) (idx : Nat),
      BlockSeq idx (salesConvs date p m idx).2
        (txnNumbers (salesConvs date p m idx).1) := by
  intro m
  induction m with
  | nil =>
      intro idx
      exact BlockSeq.nil idx
  | cons ce rest ih =>
      intro idx
      rw [salesConvs]
      cases hdf : dictFind p.currency_data ce.1 with
      | none => exact ih idx
      | some cd =>
          simp only
          rw [txnNumbers_cons]
          exact BlockSeq.cons _ _ _ 2 (by norm_num) (ih (idx + 1))

/-- Reconciliation of one report numbers its conversion transactions
consecutively. -/
theorem reconcileOne_nums (ps : List Payment) (r : Report) (idx : Nat) :
    BlockSeq idx (reconcileOne ps r idx).2
      (txnNumbers (reconcileOne ps r idx).1) := by
  rw [reconcileOne]
  cases hfp : findPayment ps r with
  | none => exact BlockSeq.nil idx
  | some p =>
      simp only
      rw [txnNumbers_append]
      exact (commissionConvs_nums _ p r.commissions idx).append_seq
        (salesConvs_nums _ p r.sales _)

/-- The reconciliation loop numbers its conversion transactions
consecutively across all reports. -/
theorem reconcile_nums (ps : List Payment) :
    ∀ (rs : List Report) (idx : Nat),
      BlockSeq idx (reconcile ps rs idx).2
        (txnNumbers (reconcile ps rs idx).1) := by
  intro rs
  induction rs with
  | nil =>
      intro idx
      exact BlockSeq.nil idx
  | cons r rest ih =>
      intro idx
      rw [reconcile]
      simp only
      rw [txnNumbers_append]
      exact (reconcileOne_nums ps r idx).append_seq
        (ih (reconcileOne ps r idx).2)

/-- Every commission-conversion transaction is balanced in weighted
value (the two legs carry the same printed rate). -/
theorem commissionConvs_weights (date : Nat) (p : Payment)
    (hg : ∀ cd ∈ p.currency_data, GoodLine cd) :
    ∀ (m : StrMap) (idx : Nat),
      ∀ t ∈ (commissionConvs date p m idx).1, wsum t = 0 := by
  intro m
  induction m with
  | nil =>
      intro idx t ht
      simp [commissionConvs] at ht
  | cons ce rest ih =>
      intro idx t ht
      rw [commissionConvs] at ht
      cases hdf : dictFind p.currency_data ce.1 with
      | none =>
          rw [hdf] at ht
          exact ih idx t ht
      | some cd =>
          rw [hdf] at ht
          simp only at ht
          by_cases hpos : 0 < ce.2
          · rw [if_pos hpos] at ht
            rcases List.mem_cons.mp ht with rfl | hm
            · have hcd := hg cd (dictFind_mem hdf)
              rw [wsum]
              simp [weight, hcd.2.2]
            · exact ih (idx + 1) t hm
          · rw [if_neg hpos] at ht
            exact ih idx t ht

/-- Every sales-conversion transaction is balanced in weighted value. -/
theorem salesConvs_weights (date : Nat) (p : Payment)
    (hg : ∀ cd ∈ p.currency_data, GoodLine cd) :
    ∀ (m : StrMap) (idx : Nat),
      ∀ t ∈ (salesConvs date p m idx).1, wsum t = 0 := by
  intro m
  induction m with
  | nil =>
      intro idx t ht
      simp [salesConvs] at ht
  | cons ce rest ih =>
      intro idx t ht
      rw [salesConvs] at ht
      cases hdf : dictFind p.currency_data ce.1 with
      | none =>
          rw [hdf] at ht
          exact ih idx t ht
      | some cd =>
          rw [hdf] at ht
          simp only at ht
          rcases List.mem_cons.mp ht with rfl | hm
          · have hcd := hg cd (dictFind_mem hdf)
            rw [wsum]
            simp [weight, hcd.2.2]
          · exact ih (idx + 1) t hm

/-- Every conversion transaction the reconciliation loop emits is
balanced in weighted value. -/
theorem reconcile_weights (ps : List Payment)
    (hg : ∀ p ∈ ps, ∀ cd ∈ p.currency_data, GoodLine cd) :
    ∀ (rs : List Report) (idx : Nat),
      ∀ t ∈ (reconcile ps rs idx).1, wsum t = 0 := by
  intro rs
  induction rs with
  | nil =>
      intro idx t ht
      simp [reconcile] at ht
  | cons r rest ih =>
      intro idx t ht
      rw [reconcile] at ht
      simp only at ht
      rcases List.mem_append.mp ht with hm | hm
      · rw [reconcileOne] at hm
        cases hfp : findPayment ps r with
        | none =>
            rw [hfp] at hm
            simp at hm
        | some p =>
            rw [hfp] at hm
            simp only at hm
            have hgp := hg p (List.mem_of_find?_eq_some hfp)
            rcases List.mem_append.mp hm with hm2 | hm2
            · exact commissionConvs_weights _ p hgp r.commissions idx t hm2
            · exact salesConvs_weights _ p hgp r.sales _ t hm2
      · exact ih (reconcileOne ps r idx).2 t hm

/-- Decomposition of a successful run into its three stages. -/
theorem runAll_ok {reportsIn : List (String × String × List SaleRow)}
    {paymentsIn : List (Nat × List PaymentTable)} {seed : Nat}
    {res : RunResult} (h : runAll reportsIn paymentsIn seed = .ok res) :
    ∃ i1 i2, parseReports reportsIn seed = .ok (res.reports, i1) ∧
      parsePaymentFiles paymentsIn i1 = .ok (res.payments, i2) ∧
      reconcile res.payments res.reports i2 = (res.convTxns, res.finalIdx) := by
  rw [runAll] at h
  cases hpr : parseReports reportsIn seed with
  | error e => rw [hpr] at h; exact Except.noConfusion h
  | ok v =>
      obtain ⟨reports, i1⟩ := v
      rw [hpr] at h
      simp only at h
      cases hpf : parsePaymentFiles paymentsIn i1 with
      | error e => rw [hpf] at h; exact Except.noConfusion h
      | ok v2 =>
          obtain ⟨payments, i2⟩ := v2
          rw [hpf] at h
          simp only at h
          obtain rfl := (Except.ok.injEq _ _).mp h
          exact ⟨i1, i2, rfl, hpf, rfl⟩

section

attribute [local semireducible] Rat.add Rat.sub Rat.mul Rat.inv Rat.ofScientific

/-! ### Claim C5 -/

/-- Claim C5: parsing a settlement-statement table (once it has parsed
currency lines) fails with the balance-mismatch error exactly when the
sum of the parsed proceeds differs from the parsed summary amount; the
specification's example table (total 100.00, proceeds 90.00) parses
without error at summary 90 and raises the balance-mismatch error at
summary 91. -/
theorem balance_check_iff :
    (∀ (date : Nat) (tbl : PaymentTable) (idx : Nat),
        parseCurrencyList tbl.rows ≠ [] →
        (processTable date tbl idx = .error .balanceMismatch ↔
          sumProceeds (parseCurrencyList tbl.rows) ≠ tbl.amount)) ∧
    (processTable 1 balancedTable 0).isOk = true ∧
    processTable 1 unbalancedTable 0 = .error .balanceMismatch := by
  refine ⟨?_, by decide, by decide⟩
  intro date tbl idx h
  by_cases hsum : sumProceeds (parseCurrencyList tbl.rows) = tbl.amount
  · cases hfb : foldBank none (parseCurrencyList tbl.rows) with
    | ok b => simp [processTable, h, hsum, hfb]
    | error e =>
        have he := foldBank_error _ _ _ hfb
        subst he
        simp [processTable, h, hsum, hfb]
  · simp [processTable, h, hsum]

/-- Witness for `balance_check_iff`: the general part applied to the
summary-91 table. -/
theorem balance_check_iff_witness :
    parseCurrencyList unbalancedTable.rows ≠ [] ∧
    (processTable 1 unbalancedTable 0 = .error .balanceMismatch ↔
      sumProceeds (parseCurrencyList unbalancedTable.rows) ≠ unbalancedTable.amount) :=
  ⟨by decide, balance_check_iff.1 1 unbalancedTable 0 (by decide)⟩

/-! ### Claim C10 -/

/-- Claim C10: a currency table all of whose data rows have a blank
exchange-rate cell yields no payment batch, undergoes no
proceeds-versus-summary check (the result is `ok` whatever the summary
amount), and is skipped silently by `parse_payment_csv`. -/
theorem blank_rate_table_skipped :
    ∀ (date : Nat) (tbl : PaymentTable) (idx : Nat) (rest : List PaymentTable),
      (∀ r ∈ tbl.rows, r.exchange_rate = none) →
      processTable date tbl idx = .ok (none, idx) ∧
      parsePaymentCsv date (tbl :: rest) idx = parsePaymentCsv date rest idx := by
  intro date tbl idx rest h
  have hcl : parseCurrencyList tbl.rows = [] := by
    refine List.filterMap_eq_nil_iff.mpr ?_
    intro r hr
    rw [h r hr]
    rfl
  have hpt : processTable date tbl idx = .ok (none, idx) := by
    simp [processTable, hcl]
  refine ⟨hpt, ?_⟩
  cases hrest : parsePaymentCsv date rest idx with
  | ok v => simp [parsePaymentCsv, hpt, hrest]
  | error e => simp [parsePaymentCsv, hpt, hrest]

/-- Witness for `blank_rate_table_skipped`: a one-row blank-rate table
whose summary amount (12345) matches no proceeds sum still parses
successfully and produces no batch. -/
theorem blank_rate_table_skipped_witness :
    (∀ r ∈ blankRateTable.rows, r.exchange_rate = none) ∧
    processTable 1 blankRateTable 0 = .ok (none, 0) ∧
    parsePaymentCsv 1 [blankRateTable] 0 = parsePaymentCsv 1 [] 0 :=
  ⟨by decide, blank_rate_table_skipped 1 blankRateTable 0 [] (by decide)⟩

/-! ### Claim C6 -/

/-- Claim C6 counterexample: a transaction whose entries sum to 5, not
zero, passes through `write_transactions` unchanged — no assertion, no
halt; the non-zero-sum entries are written to the output. -/
theorem unbalanced_txn_written :
    esum unbalancedTxn ≠ 0 ∧
    writeTransactions [unbalancedTxn] = unbalancedTxn.entries := by
  constructor
  · decide
  · unfold writeTransactions
    rw [List.perm_singleton.mp (List.mergeSort_perm [unbalancedTxn] _)]
    simp

/-- Claim C6 amended: `write_transactions` performs no balance check at
all — every entry of every transaction, balanced or not, appears in the
written output. -/
theorem writeTransactions_writes_all_entries :
    ∀ (ts : List Txn) (t : Txn), t ∈ ts → ∀ e ∈ t.entries,
      e ∈ writeTransactions ts := by
  intro ts t ht e he
  unfold writeTransactions
  exact List.mem_flatMap.mpr ⟨t, ((List.mergeSort_perm ts _).mem_iff).mpr ht, he⟩

/-- Witness for `writeTransactions_writes_all_entries` on the unbalanced
transaction. -/
theorem writeTransactions_writes_all_entries_witness :
    unbalancedTxn ∈ [unbalancedTxn] ∧
    ∀ e ∈ unbalancedTxn.entries, e ∈ writeTransactions [unbalancedTxn] :=
  ⟨List.mem_singleton.mpr rfl,
   writeTransactions_writes_all_entries [unbalancedTxn] unbalancedTxn
     (List.mem_singleton.mpr rfl)⟩

/-! ### Claim C7 -/

/-- Claim C7: for a sales row whose partner-share currency equals its
customer currency, the parser computes `customerTotal = |price| * qty`,
`partnerTotal = |share| * qty`, `commission = customerTotal -
partnerTotal`, accumulates them into the per-currency sales, earned and
commissions totals, and emits exactly the three entries
`-customerTotal` on Income:Sales, `+partnerTotal` on the receivable and
`+commission` on Expenses:Commissions, which sum to zero. -/
theorem reportStep_spec (s : RState) (r : SaleRow)
    (h : r.partner_share_currency = r.customer_currency) :
    reportStep s r = .ok
      { currencies := setAdd s.currencies r.customer_currency
        transactions := s.transactions ++
          [⟨r.settlement_date,
            [⟨r.settlement_date, "Income:Sales:" ++ r.customer_currency,
                -(|r.customer_price| * (r.quantity : ℚ)), s.idx, r.title, "", 0⟩,
             ⟨r.settlement_date,
                "Assets:Accounts Receivable:" ++ r.customer_currency,
                |r.partner_share| * (r.quantity : ℚ), s.idx, r.title, "", 0⟩,
             ⟨r.settlement_date, "Expenses:Commissions:" ++ r.customer_currency,
                |r.customer_price| * (r.quantity : ℚ) -
                  |r.partner_share| * (r.quantity : ℚ),
                s.idx, r.title, "Commission", 0⟩]⟩]
        commissions := mapAdd s.commissions r.customer_currency
          (|r.customer_price| * (r.quantity : ℚ) -
            |r.partner_share| * (r.quantity : ℚ))
        earned := mapAdd s.earned r.customer_currency
          (|r.partner_share| * (r.quantity : ℚ))
        sales := mapAdd s.sales r.customer_currency
          (|r.customer_price| * (r.quantity : ℚ))
        idx := s.idx + 1 } ∧
    esum ⟨r.settlement_date, rowEntries r s.idx⟩ = 0 := by
  constructor
  · simp only [reportStep, h, ne_eq, not_true_eq_false, if_false, rowEntries,
      Except.ok.injEq]
    simp [sub_mul]
  · simp [esum, rowEntries]
    ring

/-- Witness for `reportStep_spec`: the specification's end-to-end sale
(quantity 2, customer price 9.99 USD, partner share 6.99 USD) satisfies
the same-currency precondition and its three entries sum to zero. -/
theorem reportStep_spec_witness :
    saleRowEg.partner_share_currency = saleRowEg.customer_currency ∧
    esum ⟨3, rowEntries saleRowEg 0⟩ = 0 :=
  ⟨by decide, (reportStep_spec ⟨[], [], [], [], [], 0⟩ saleRowEg (by decide)).2⟩

end

/-! ### Claim C9 -/

/-- The deposit-search loop returns `some (d, log1)` exactly when the log
splits as `pre ++ e :: post` with `e` the first entry satisfying the
match condition, the deposit date is `d`, and `log1` is the log with `e`
popped. -/
theorem findDeposit_some_iff :
    ∀ (log : List LogEntry) (p : Payment) (d : Nat) (log1 : List LogEntry),
      findDeposit log p = some (d, log1) ↔
        ∃ pre e post, log = pre ++ e :: post ∧ log1 = pre ++ post ∧
          depSat p e d ∧ ∀ e1 ∈ pre, ∀ d1, ¬ depSat p e1 d1 := by
  intro log p
  induction log with
  | nil =>
      intro d log1
      constructor
      · intro h
        simp [findDeposit] at h
      · rintro ⟨pre, e, post, h, -⟩
        exact absurd h (by simp)
  | cons e0 rest ih =>
      intro d log1
      constructor
      · intro h
        rw [findDeposit] at h
        cases hd0 : e0.date with
        | none =>
            rw [hd0] at h
            simp only at h
            obtain ⟨⟨d1, l1⟩, hrec, heq⟩ := Option.map_eq_some'.mp h
            simp only [Prod.mk.injEq] at heq
            obtain ⟨rfl, hl⟩ := heq
            obtain ⟨pre, e, post, hlog, hlog1, hsat, hpre⟩ := (ih _ _).mp hrec
            refine ⟨e0 :: pre, e, post, by rw [List.cons_append, hlog],
              by rw [← hl, hlog1, List.cons_append], hsat, ?_⟩
            intro e1 he1 d2 hcon
            rcases List.mem_cons.mp he1 with rfl | hm
            · simp only [depSat] at hcon
              rw [hd0] at hcon
              exact Option.noConfusion hcon.1
            · exact hpre e1 hm d2 hcon
        | some d0 =>
            rw [hd0] at h
            simp only at h
            by_cases hc : e0.amount = p.amount ∧ p.estimated_date < d0
            · rw [if_pos hc] at h
              rw [Option.some.injEq, Prod.mk.injEq] at h
              obtain ⟨rfl, hl⟩ := h
              refine ⟨[], e0, rest, by simp, by simp [hl], ⟨hd0, hc.1, hc.2⟩,
                by simp⟩
            · rw [if_neg hc] at h
              obtain ⟨⟨d1, l1⟩, hrec, heq⟩ := Option.map_eq_some'.mp h
              simp only [Prod.mk.injEq] at heq
              obtain ⟨rfl, hl⟩ := heq
              obtain ⟨pre, e, post, hlog, hlog1, hsat, hpre⟩ := (ih _ _).mp hrec
              refine ⟨e0 :: pre, e, post, by rw [List.cons_append, hlog],
                by rw [← hl, hlog1, List.cons_append], hsat, ?_⟩
              intro e1 he1 d2 hcon
              rcases List.mem_cons.mp he1 with rfl | hm
              · simp only [depSat] at hcon
                obtain ⟨hdd, hrest⟩ := hcon
                rw [hd0] at hdd
                obtain rfl := (Option.some.injEq _ _).mp hdd
                exact hc hrest
              · exact hpre e1 hm d2 hcon
      · rintro ⟨pre, e, post, hlog, hlog1, hsat, hpre⟩
        cases pre with
        | nil =>
            simp only [List.nil_append] at hlog hlog1
            rw [List.cons.injEq] at hlog
            obtain ⟨rfl, rfl⟩ := hlog
            rw [findDeposit, hsat.1]
            simp only
            rw [if_pos ⟨hsat.2.1, hsat.2.2⟩, hlog1]
        | cons f pre1 =>
            rw [List.cons_append, List.cons.injEq] at hlog
            obtain ⟨rfl, hrest⟩ := hlog
            have hrec : findDeposit rest p = some (d, pre1 ++ post) :=
              (ih _ _).mpr ⟨pre1, e, post, hrest, rfl, hsat,
                fun e1 h1 => hpre e1 (List.mem_cons_of_mem _ h1)⟩
            rw [findDeposit]
            cases hd0 : e0.date with
            | none =>
                simp only
                rw [hrec, hlog1]
                rfl
            | some d0 =>
                have hnc : ¬(e0.amount = p.amount ∧ p.estimated_date < d0) := by
                  intro hcon
                  exact hpre e0 (List.mem_cons_self _ _) d0 ⟨hd0, hcon.1, hcon.2⟩
                simp only
                rw [if_neg hnc, hrec, hlog1]
                rfl

/-- Every price annotation the taxes-and-adjustments loop writes is zero
or the effective rate `proceeds / total` of one of the lines. -/
theorem taxAdjEntries_price (date : Nat) :
    ∀ (cl : List CurrencyData) (j : Nat),
      ∀ e ∈ (taxAdjEntries date cl j).1,
        e.price = 0 ∨ ∃ cd ∈ cl, e.price = cd.proceeds / cd.total := by
  intro cl
  induction cl with
  | nil =>
      intro j e he
      simp [taxAdjEntries] at he
  | cons cd rest ih =>
      intro j e he
      simp only [taxAdjEntries] at he
      by_cases hz : cd.input_tax + cd.witholding + cd.adjustments = 0
      · rw [if_pos hz] at he
        rcases ih j e he with h0 | ⟨cd2, h2, hp⟩
        · exact Or.inl h0
        · exact Or.inr ⟨cd2, List.mem_cons_of_mem _ h2, hp⟩
      · rw [if_neg hz] at he
        by_cases h3 : cd.input_tax + cd.witholding ≠ 0
        · rw [if_pos h3] at he
          by_cases h4 : cd.adjustments ≠ 0
          · rw [if_pos h4] at he
            simp only [List.singleton_append, List.cons_append, List.nil_append,
              List.mem_cons] at he
            rcases he with rfl | rfl | rfl | hm
            · exact Or.inl rfl
            · exact Or.inl rfl
            · exact Or.inr ⟨cd, List.mem_cons_self _ _, rfl⟩
            · rcases ih (j + 1) e hm with h0 | ⟨cd2, h2, hp⟩
              · exact Or.inl h0
              · exact Or.inr ⟨cd2, List.mem_cons_of_mem _ h2, hp⟩
          · rw [if_neg h4] at he
            simp only [List.singleton_append, List.cons_append, List.nil_append,
              List.mem_cons] at he
            rcases he with rfl | rfl | hm
            · exact Or.inl rfl
            · exact Or.inr ⟨cd, List.mem_cons_self _ _, rfl⟩
            · rcases ih (j + 1) e hm with h0 | ⟨cd2, h2, hp⟩
              · exact Or.inl h0
              · exact Or.inr ⟨cd2, List.mem_cons_of_mem _ h2, hp⟩
        · rw [if_neg h3] at he
          by_cases h4 : cd.adjustments ≠ 0
          · rw [if_pos h4] at he
            simp only [List.singleton_append, List.cons_append, List.nil_append,
              List.mem_cons] at he
            rcases he with rfl | rfl | hm
            · exact Or.inl rfl
            · exact Or.inr ⟨cd, List.mem_cons_self _ _, rfl⟩
            · rcases ih (j + 1) e hm with h0 | ⟨cd2, h2, hp⟩
              · exact Or.inl h0
              · exact Or.inr ⟨cd2, List.mem_cons_of_mem _ h2, hp⟩
          · rw [if_neg h4] at he
            simp only [List.singleton_append, List.cons_append, List.nil_append,
              List.mem_cons] at he
            rcases he with rfl | hm
            · exact Or.inr ⟨cd, List.mem_cons_self _ _, rfl⟩
            · rcases ih (j + 1) e hm with h0 | ⟨cd2, h2, hp⟩
              · exact Or.inl h0
              · exact Or.inr ⟨cd2, List.mem_cons_of_mem _ h2, hp⟩

/-- Every transaction the commission-conversion loop emits is a two-leg
conversion at the printed exchange rate of the matched payment's
currency line. -/
theorem commissionConvs_entries (date : Nat) (p : Payment) :
    ∀ (m : StrMap) (idx : Nat) (t : Txn),
      t ∈ (commissionConvs date p m idx).1 →
      ∃ c amt cd n, dictFind p.currency_data c = some cd ∧ 0 < amt ∧
        t = ⟨date,
          [⟨date, "Expenses:Commissions", amt * cd.exchange_rate, n,
             "Commission " ++ c, "", 0⟩,
           ⟨date, "Expenses:Commissions:" ++ c, -amt, n, "Commission " ++ c,
             "", cd.exchange_rate⟩]⟩ := by
  intro m
  induction m with
  | nil =>
      intro idx t ht
      simp [commissionConvs] at ht
  | cons ce rest ih =>
      intro idx t ht
      rw [commissionConvs] at ht
      cases hdf : dictFind p.currency_data ce.1 with
      | none =>
          rw [hdf] at ht
          exact ih idx t ht
      | some cd =>
          rw [hdf] at ht
          simp only at ht
          by_cases hpos : 0 < ce.2
          · rw [if_pos hpos] at ht
            rcases List.mem_cons.mp ht with rfl | hm
            · exact ⟨ce.1, ce.2, cd, idx, hdf, hpos, rfl⟩
            · exact ih (idx + 1) t hm
          · rw [if_neg hpos] at ht
            exact ih idx t ht

/-- Every transaction the sales-conversion loop emits is a two-leg
conversion at the printed exchange rate of the matched payment's
currency line. -/
theorem salesConvs_entries (date : Nat) (p : Payment) :
    ∀ (m : StrMap) (idx : Nat) (t : Txn),
      t ∈ (salesConvs date p m idx).1 →
      ∃ c amt cd n, dictFind p.currency_data c = some cd ∧
        t = ⟨date,
          [⟨date, "Income:Sales:" ++ c, amt, n, "Sales Conversion " ++ c, "",
             cd.exchange_rate⟩,
           ⟨date, "Income:Sales", -(amt * cd.exchange_rate), n,
             "Sales Conversion " ++ c, "", 0⟩]⟩ := by
  intro m
  induction m with
  | nil =>
      intro idx t ht
      simp [salesConvs] at ht
  | cons ce rest ih =>
      intro idx t ht
      rw [salesConvs] at ht
      cases hdf : dictFind p.currency_data ce.1 with
      | none =>
          rw [hdf] at ht
          exact ih idx t ht
      | some cd =>
          rw [hdf] at ht
          simp only at ht
          rcases List.mem_cons.mp ht with rfl | hm
          · exact ⟨ce.1, ce.2, cd, idx, hdf, rfl⟩
          · exact ih (idx + 1) t hm

section

attribute [local semireducible] Rat.add Rat.sub Rat.mul Rat.inv Rat.ofScientific

/-- Claim C9: with a deposit log supplied, each batch (in input order)
consumes the first not-yet-consumed deposit record whose amount equals
the batch's settled amount and whose date is strictly after the batch's
estimated period-start date; on a match every entry date of the batch's
transactions and every price-record date is rewritten to the deposit
date; a batch with no satisfying record aborts the run. -/
theorem matchDeposits_spec :
    (∀ (log : List LogEntry) (target : Option String) (p : Payment)
        (ps : List Payment),
        findDeposit log p = none →
        matchDeposits log target (p :: ps) = .error .noMatchingDeposit) ∧
    (∀ (log : List LogEntry) (p : Payment) (d : Nat) (log1 : List LogEntry),
        findDeposit log p = some (d, log1) ↔
          ∃ pre e post, log = pre ++ e :: post ∧ log1 = pre ++ post ∧
            depSat p e d ∧ ∀ e1 ∈ pre, ∀ d1, ¬ depSat p e1 d1) ∧
    (∀ (log : List LogEntry) (target : Option String) (p : Payment)
        (ps : List Payment) (out : List Txn × List PriceRecord × Option String),
        matchDeposits log target (p :: ps) = .ok out →
        ∃ d log1,
          findDeposit log p = some (d, log1) ∧
          (∃ rest, out.1 = p.transactions.map (rewriteTxn d) ++ rest) ∧
          (∃ rest, out.2.1 = p.conversion.map (rewriteRecord d) ++ rest) ∧
          (∀ t ∈ p.transactions.map (rewriteTxn d), t.date = d ∧
            ∀ e ∈ t.entries, e.date = d) ∧
          (∀ c ∈ p.conversion.map (rewriteRecord d), c.date = d)) := by
  refine ⟨?_, findDeposit_some_iff, ?_⟩
  · intro log target p ps h
    rw [matchDeposits, h]
  · intro log target p ps out h
    rw [matchDeposits] at h
    cases hfd : findDeposit log p with
    | none => rw [hfd] at h; exact Except.noConfusion h
    | some v =>
        obtain ⟨d, log1⟩ := v
        rw [hfd] at h
        simp only at h
        refine ⟨d, log1, rfl, ?_⟩
        cases hct : checkTarget target p with
        | error e => rw [hct] at h; exact Except.noConfusion h
        | ok target1 =>
            rw [hct] at h
            simp only at h
            cases hmd : matchDeposits log1 target1 ps with
            | error e => rw [hmd] at h; exact Except.noConfusion h
            | ok next =>
                rw [hmd] at h
                simp only at h
                obtain rfl := (Except.ok.injEq _ _).mp h
                refine ⟨⟨next.1, rfl⟩, ⟨next.2.1, rfl⟩, ?_, ?_⟩
                · intro t ht
                  obtain ⟨t0, -, rfl⟩ := List.mem_map.mp ht
                  refine ⟨rfl, ?_⟩
                  intro e he
                  obtain ⟨e0, -, rfl⟩ := List.mem_map.mp he
                  rfl
                · intro c hc
                  obtain ⟨c0, -, rfl⟩ := List.mem_map.mp hc
                  rfl

/-- Witness for `matchDeposits_spec`: a log whose only record matches
neither the amount nor the date window of the batch makes the run
abort. -/
theorem matchDeposits_spec_witness :
    findDeposit [logEntryEg] (usdPayment 0) = none ∧
    matchDeposits [logEntryEg] none [usdPayment 0] =
      .error .noMatchingDeposit :=
  ⟨by decide,
   matchDeposits_spec.1 [logEntryEg] none (usdPayment 0) [] (by decide)⟩

/-! ### Claim C2 -/

/-- Claim C2 counterexample: a report whose earned totals match two
distinct not-yet-matched batches is nevertheless reconciled — the first
matching batch is taken and conversion transactions are emitted, where
the claim requires ambiguity to suppress them. -/
theorem ambiguous_match_still_converts :
    parseReport "s" "e" [saleRowEg] 0 = .ok (saleReportAt 0, 1) ∧
    parsePaymentCsv 5 [usdTable, usdTable] 1 =
      .ok ([usdPayment 1, usdPayment 2], 3) ∧
    0 < matchCount (saleReportAt 0) (usdPayment 1) ∧
    0 < matchCount (saleReportAt 0) (usdPayment 2) ∧
    findPayment [usdPayment 1, usdPayment 2] (saleReportAt 0) =
      some (usdPayment 1) ∧
    (reconcileOne [usdPayment 1, usdPayment 2] (saleReportAt 0) 3).1 ≠ [] :=
  ⟨by decide, by decide, by decide, by decide, by decide, by decide⟩

/-- Claim C2 amended: reconciliation pairs a report with the first batch
of the full input-order list having at least one currency whose recorded
earned amount equals the report's accumulated earned amount — no
uniqueness check, no removal of matched batches; when no batch matches,
no conversion transactions are emitted and the counter is untouched,
while the report's raw per-sale transactions are still part of the run's
output. -/
theorem reconcile_first_match_spec :
    (∀ (ps : List Payment) (r : Report) (p : Payment),
        findPayment ps r = some p ↔
          0 < matchCount r p ∧
          ∃ pre post, ps = pre ++ p :: post ∧ ∀ q ∈ pre, matchCount r q = 0) ∧
    (∀ (ps : List Payment) (r : Report) (idx : Nat),
        findPayment ps r = none → reconcileOne ps r idx = ([], idx)) ∧
    (∀ (reportsIn : List (String × String × List SaleRow))
        (paymentsIn : List (Nat × List PaymentTable)) (seed : Nat)
        (res : RunResult),
        runAll reportsIn paymentsIn seed = .ok res →
        ∀ rep ∈ res.reports, ∀ t ∈ rep.transactions, t ∈ genTxns res) := by
  refine ⟨?_, ?_, ?_⟩
  · intro ps r p
    rw [findPayment, List.find?_eq_some]
    constructor
    · rintro ⟨hb, as, bs, heq, hall⟩
      refine ⟨by simpa using hb, as, bs, heq, ?_⟩
      intro q hq
      have hq2 := hall q hq
      simp only [Bool.not_eq_eq_eq_not, Bool.not_true, decide_eq_false_iff_not,
        Nat.not_lt, Nat.le_zero] at hq2
      exact hq2
    · rintro ⟨hp, as, bs, heq, hall⟩
      refine ⟨by simpa using hp, as, bs, heq, ?_⟩
      intro q hq
      simp only [Bool.not_eq_eq_eq_not, Bool.not_true, decide_eq_false_iff_not,
        Nat.not_lt, Nat.le_zero]
      exact hall q hq
  · intro ps r idx h
    rw [reconcileOne, h]
  · intro reportsIn paymentsIn seed res h rep hrep t ht
    exact List.mem_append_left _ (List.mem_append_left _
      (List.mem_flatMap.mpr ⟨rep, hrep, ht⟩))

/-- Witness for `reconcile_first_match_spec`: a report with USD earnings
finds no match among EUR-only batches, so reconciliation emits nothing
and the counter stays put. -/
theorem reconcile_first_match_spec_witness :
    findPayment [ratePayment] (saleReportAt 0) = none ∧
    reconcileOne [ratePayment] (saleReportAt 0) 5 = ([], 5) :=
  ⟨by decide,
   reconcile_first_match_spec.2.1 [ratePayment] (saleReportAt 0) 5 (by decide)⟩

/-! ### Claim C4 -/

/-- Claim C4 counterexample: a matched batch is not removed from the
candidate pool — two distinct reports (parsed from identical rows, so
with identical earned totals) both match the same single batch. -/
theorem same_batch_matches_two_reports :
    parseReports [("s", "e", [saleRowEg]), ("s", "e", [saleRowEg])] 0 =
      .ok ([saleReportAt 0, saleReportAt 1], 2) ∧
    saleReportAt 0 ≠ saleReportAt 1 ∧
    findPayment [usdPayment 2] (saleReportAt 0) = some (usdPayment 2) ∧
    findPayment [usdPayment 2] (saleReportAt 1) = some (usdPayment 2) :=
  ⟨by decide, by decide, by decide, by decide⟩

/-- Claim C4 amended: reconciliation never removes a batch from the
candidate list; the batch matched for a report depends only on the
report's earned totals and the full batch list, so two reports with
equal earned maps always match the same batch. -/
theorem findPayment_determined_by_earned :
    ∀ (ps : List Payment) (r1 r2 : Report), r1.earned = r2.earned →
      findPayment ps r1 = findPayment ps r2 := by
  intro ps r1 r2 h
  unfold findPayment matchCount
  rw [h]

/-- Witness for `findPayment_determined_by_earned`: the two reports of
the counterexample share their earned map and match identically. -/
theorem findPayment_determined_by_earned_witness :
    (saleReportAt 0).earned = (saleReportAt 1).earned ∧
    findPayment [usdPayment 2] (saleReportAt 0) =
      findPayment [usdPayment 2] (saleReportAt 1) :=
  ⟨by decide,
   findPayment_determined_by_earned [usdPayment 2] (saleReportAt 0)
     (saleReportAt 1) (by decide)⟩

/-! ### Claim C3 -/

/-- Claim C3 counterexample: on a line with printed rate 0.5 but
effective rate `90 / 100 = 0.9`, the emitted price record carries the
printed 0.5, and the commission and sales conversion amounts are
`10 * 0.5 = 5` and `40 * 0.5 = 20` (the effective rate would give 9 and
36): the printed exchange-rate column, not `proceeds / total`, drives
the price records and the conversion amounts. -/
theorem conversion_uses_printed_rate_cex :
    processTable 5 mismatchTable 0 = .ok (some ratePayment, 1) ∧
    ratePayment.conversion = [⟨5, 1/2, "CURRENCY", "EUR", "USD"⟩] ∧
    ((1 : ℚ)/2) ≠ 90/100 ∧
    (reconcileOne [ratePayment] rateReport 1).1 =
      [⟨5, [⟨5, "Expenses:Commissions", 5, 1, "Commission EUR", "", 0⟩,
            ⟨5, "Expenses:Commissions:EUR", -10, 1, "Commission EUR", "",
              1/2⟩]⟩,
       ⟨5, [⟨5, "Income:Sales:EUR", 40, 2, "Sales Conversion EUR", "", 1/2⟩,
            ⟨5, "Income:Sales", -20, 2, "Sales Conversion EUR", "", 0⟩]⟩] :=
  ⟨by decide, by decide, by decide, by decide⟩

/-- Claim C3 amended: the per-currency receivable legs and the
tax/adjustment legs are priced at the effective rate
`proceeds / total`, but the emitted price records carry the printed
exchange-rate column, and the commission and sales conversion amounts
are computed from the printed exchange-rate column of the matched
batch's currency line. -/
theorem rates_used_spec :
    (∀ (date : Nat) (tbl : PaymentTable) (idx i : Nat) (p : Payment),
        processTable date tbl idx = .ok (some p, i) →
        (∀ rec ∈ p.conversion, ∃ cd ∈ p.currency_data,
            rec.rate = cd.exchange_rate ∧ rec.fromCurrency = cd.currency ∧
            cd.currency ≠ cd.bank_currency) ∧
        (∀ t ∈ p.transactions, ∀ e ∈ t.entries, e.price ≠ 0 →
            ∃ cd ∈ p.currency_data, e.price = cd.proceeds / cd.total)) ∧
    (∀ (date : Nat) (p : Payment) (m : StrMap) (idx : Nat) (t : Txn),
        t ∈ (commissionConvs date p m idx).1 →
        ∃ c amt cd n, dictFind p.currency_data c = some cd ∧ 0 < amt ∧
          t = ⟨date,
            [⟨date, "Expenses:Commissions", amt * cd.exchange_rate, n,
               "Commission " ++ c, "", 0⟩,
             ⟨date, "Expenses:Commissions:" ++ c, -amt, n, "Commission " ++ c,
               "", cd.exchange_rate⟩]⟩) ∧
    (∀ (date : Nat) (p : Payment) (m : StrMap) (idx : Nat) (t : Txn),
        t ∈ (salesConvs date p m idx).1 →
        ∃ c amt cd n, dictFind p.currency_data c = some cd ∧
          t = ⟨date,
            [⟨date, "Income:Sales:" ++ c, amt, n, "Sales Conversion " ++ c,
               "", cd.exchange_rate⟩,
             ⟨date, "Income:Sales", -(amt * cd.exchange_rate), n,
               "Sales Conversion " ++ c, "", 0⟩]⟩) := by
  refine ⟨?_, commissionConvs_entries, salesConvs_entries⟩
  intro date tbl idx i p h
  obtain ⟨-, -, bank, -, rfl, -⟩ := processTable_ok_some h
  constructor
  · intro rec hrec
    obtain ⟨cd, hcd, heq⟩ := List.mem_filterMap.mp hrec
    by_cases hne : cd.currency ≠ cd.bank_currency
    · rw [if_pos hne] at heq
      obtain rfl := (Option.some.injEq _ _).mp heq
      exact ⟨cd, hcd, rfl, rfl, hne⟩
    · rw [if_neg hne] at heq
      exact Option.noConfusion heq
  · intro t ht e he hep
    obtain rfl := List.mem_singleton.mp ht
    rcases List.mem_append.mp he with hr | htax
    · rcases List.mem_cons.mp hr with rfl | hmap
      · exact absurd rfl hep
      · obtain ⟨cd, hcd, rfl⟩ := List.mem_map.mp hmap
        exact ⟨cd, hcd, rfl⟩
    · rcases taxAdjEntries_price date _ _ e htax with h0 | hcd
      · exact absurd h0 hep
      · exact hcd

/-! ### Claim C1 -/

/-- Claim C1 counterexample: the run over the rate-mismatch table emits
exactly one transaction, whose entry amounts sum to -10, not zero (the
batch transaction debits 90 bank-currency units and credits 100 local
units; only the price-weighted sum balances). -/
theorem emitted_sum_nonzero_cex :
    (runAll [] [(5, [mismatchTable])] 0).map
      (fun res => (genTxns res).map esum) = .ok [-10] ∧
    ((-10 : ℚ) ≠ 0) :=
  ⟨by decide, by decide⟩

/-- Claim C1 amended: for every transaction a run emits — per-sale,
payment-batch with its tax/adjustment legs, and conversions — the
price-weighted sum of its entries (amount times price, a price of 0
standing for rate 1) is exactly zero, provided every parsed currency
line has non-zero total, proceeds and printed rate; the plain sum of
the amount fields is zero for the per-sale transactions. -/
theorem run_price_weighted_balance :
    ∀ (reportsIn : List (String × String × List SaleRow))
      (paymentsIn : List (Nat × List PaymentTable)) (seed : Nat)
      (res : RunResult),
      runAll reportsIn paymentsIn seed = .ok res →
      (∀ f ∈ paymentsIn, ∀ tbl ∈ f.2, ∀ cd ∈ parseCurrencyList tbl.rows,
        GoodLine cd) →
      (∀ t ∈ genTxns res, wsum t = 0) ∧
      ∀ rep ∈ res.reports, ∀ t ∈ rep.transactions, esum t = 0 := by
  intro reportsIn paymentsIn seed res h hg
  obtain ⟨i1, i2, hpr, hpf, hrec⟩ := runAll_ok h
  obtain ⟨-, hzr⟩ := parseReports_props _ _ _ _ hpr
  obtain ⟨-, hzp⟩ := parsePaymentFiles_props _ _ _ _ hpf hg
  have hgps : ∀ p ∈ res.payments, ∀ cd ∈ p.currency_data, GoodLine cd :=
    fun p hp => (hzp p hp).2
  have hconv : (reconcile res.payments res.reports i2).1 = res.convTxns := by
    rw [hrec]
  constructor
  · intro t ht
    rw [genTxns] at ht
    rcases List.mem_append.mp ht with hm | hm
    · rcases List.mem_append.mp hm with hm2 | hm2
      · obtain ⟨rep, hrep, ht2⟩ := List.mem_flatMap.mp hm2
        exact (hzr rep hrep t ht2).2
      · obtain ⟨p, hp, ht2⟩ := List.mem_flatMap.mp hm2
        exact (hzp p hp).1 t ht2
    · exact reconcile_weights res.payments hgps res.reports i2 t (hconv ▸ hm)
  · intro rep hrep t ht
    exact (hzr rep hrep t ht).1

/-- Witness for `run_price_weighted_balance`: a full run (one sale, one
USD batch at rate 1, seed 7). -/
theorem run_price_weighted_balance_witness :
    runAll [("s", "e", [saleRowEg])] [(5, [usdTable])] 7 = .ok runResultEg ∧
    (∀ f ∈ [(5, [usdTable])], ∀ tbl ∈ f.2,
      ∀ cd ∈ parseCurrencyList tbl.rows, GoodLine cd) ∧
    ((∀ t ∈ genTxns runResultEg, wsum t = 0) ∧
      ∀ rep ∈ runResultEg.reports, ∀ t ∈ rep.transactions, esum t = 0) :=
  ⟨by decide, by decide,
   run_price_weighted_balance [("s", "e", [saleRowEg])] [(5, [usdTable])] 7
     runResultEg (by decide) (by decide)⟩

/-! ### Claim C8 -/

/-- Claim C8: across one run, the numbers assigned to the successively
generated transaction groups (read off the emitted rows in generation
order, adjacent rows of a group collapsed) are exactly
`seed, seed+1, ..., final-1`: strictly increasing, no reuse, starting
from the optionally persisted seed. -/
theorem run_numbers_contiguous :
    ∀ (reportsIn : List (String × String × List SaleRow))
      (paymentsIn : List (Nat × List PaymentTable)) (seed : Nat)
      (res : RunResult),
      runAll reportsIn paymentsIn seed = .ok res →
      dedupAdj (txnNumbers (genTxns res)) =
        List.range' seed (res.finalIdx - seed) := by
  intro reportsIn paymentsIn seed res h
  obtain ⟨i1, i2, hpr, hpf, hrec⟩ := runAll_ok h
  obtain ⟨hbr, -⟩ := parseReports_props _ _ _ _ hpr
  have hbp := parsePaymentFiles_nums _ _ _ _ hpf
  have hbc := reconcile_nums res.payments res.reports i2
  have hconv1 : (reconcile res.payments res.reports i2).1 = res.convTxns := by
    rw [hrec]
  have hconv2 : (reconcile res.payments res.reports i2).2 = res.finalIdx := by
    rw [hrec]
  rw [genTxns, txnNumbers_append, txnNumbers_append]
  apply dedupAdj_of_blockSeq
  refine (hbr.append_seq hbp).append_seq ?_
  rw [← hconv1, ← hconv2]
  exact hbc

/-- Witness for `run_numbers_contiguous`: the example run seeded at 7
uses the group numbers 7, 8, 9, 10 and ends at 11. -/
theorem run_numbers_contiguous_witness :
    runAll [("s", "e", [saleRowEg])] [(5, [usdTable])] 7 = .ok runResultEg ∧
    dedupAdj (txnNumbers (genTxns runResultEg)) =
      List.range' 7 (runResultEg.finalIdx - 7) :=
  ⟨by decide,
   run_numbers_contiguous [("s", "e", [saleRowEg])] [(5, [usdTable])] 7
     runResultEg (by decide)⟩

/-- Witness for `rates_used_spec`: applied to the batch built from the
rate-mismatch table. -/
theorem rates_used_spec_witness :
    processTable 5 mismatchTable 0 = .ok (some ratePayment, 1) ∧
    ((∀ rec ∈ ratePayment.conversion, ∃ cd ∈ ratePayment.currency_data,
        rec.rate = cd.exchange_rate ∧ rec.fromCurrency = cd.currency ∧
        cd.currency ≠ cd.bank_currency) ∧
     (∀ t ∈ ratePayment.transactions, ∀ e ∈ t.entries, e.price ≠ 0 →
        ∃ cd ∈ ratePayment.currency_data,
          e.price = cd.proceeds / cd.total)) :=
  ⟨by decide, rates_used_spec.1 5 mismatchTable 0 1 ratePayment (by decide)⟩

end

end A2C
